import Mathlib

/-!
Verification of the dark-factory pipeline engine (package `attractor`).

This file shallowly embeds the Go sources of the repository into Lean 4:
pure string helpers from the Go standard library are modelled as Lean
functions over `String` / `List Char` (Go operates on UTF-8 bytes; all
patterns scanned by the embedded code are ASCII, for which the byte view
and the codepoint view coincide), the engine's data model (attribute
bags, nodes, edges, outcomes) is modelled as Lean structures, and the
filesystem touched by the hide-and-restore isolation layer is modelled
as a tree of directories and files.  Fallible Go functions returning
`(T, error)` become `Except String T` or `Option`; Go `nil` slices
become `[]`.

Sections:
  1. Go standard-library string primitives.
  2. Attribute bags, nodes, edges, graphs, contexts (part_007 of the source).
  3. Engine definitions from engine.go (routing, allowlist guardrail,
     retry policy, tool-command filter, unfixable-failure guard).
  4. Verification subsystem (part_009, verification_plan.go).
  5. Filesystem model and the hide/restore protocol (agent_codex.go).
  6. Spec-side definitions used to compare the specification's wording
     with the code, and the claim theorems.
-/

/-! ## Section 1: Go string primitives -/

/-- The double-quote character (written numerically to keep literals simple). -/
def dquoteChar : Char := Char.ofNat 34

/-- The single-quote character. -/
def squoteChar : Char := Char.ofNat 39

/-- The backslash character. -/
def bslashChar : Char := Char.ofNat 92

/-- Whitespace per Go `unicode.IsSpace` (the ASCII cases plus NEL and NBSP),
which is what `strings.TrimSpace` and `strings.Fields` split on. -/
def goIsSpace (c : Char) : Bool :=
  c = ' ' || c = '\t' || c = '\n' || c = '\r' || c = '\x0b' || c = '\x0c' ||
  c = '\u0085' || c = ' '

/-- Build a `String` back from a character list. -/
def ofChars (l : List Char) : String := String.mk l

/-- Go `strings.TrimSpace`. -/
def goTrimSpace (s : String) : String :=
  ofChars (((s.toList.dropWhile goIsSpace).reverse.dropWhile goIsSpace).reverse)

/-- `listIsPre p l` holds iff `p` occurs at the front of `l`. -/
def listIsPre [DecidableEq α] : List α → List α → Bool
  | [], _ => true
  | _ :: _, [] => false
  | a :: ps, b :: ls => a = b && listIsPre ps ls

/-- Go `strings.HasPrefix`. -/
def goStartsWith (s pre : String) : Bool := listIsPre pre.toList s.toList

/-- Go `strings.HasSuffix`. -/
def goEndsWith (s suf : String) : Bool := listIsPre suf.toList.reverse s.toList.reverse

/-- `listFindSub l pat` is the index of the first occurrence of `pat`
inside `l`, if any (Go `strings.Index`). -/
def listFindSub [DecidableEq α] : List α → List α → Option Nat
  | _, [] => some 0
  | [], _ :: _ => none
  | a :: rest, pat =>
    if listIsPre pat (a :: rest) then some 0
    else (listFindSub rest pat).map (· + 1)

/-- Go `strings.Contains`. -/
def goContains (s pat : String) : Bool := (listFindSub s.toList pat.toList).isSome

/-- Index of the first occurrence of `pat` in `s` (Go `strings.Index`),
counting characters. -/
def goIndexOfSub (s pat : String) : Option Nat := listFindSub s.toList pat.toList

/-- Index of the first occurrence of character `c` (Go `strings.IndexByte`). -/
def goIndexOfChar (s : String) (c : Char) : Option Nat := listFindSub s.toList [c]

/-- Drop the first `n` characters of `s`. -/
def strDrop (s : String) (n : Nat) : String := ofChars (s.toList.drop n)

/-- Take the first `n` characters of `s`. -/
def strTake (s : String) (n : Nat) : String := ofChars (s.toList.take n)

/-- Go `strings.Fields`: split around runs of whitespace. -/
def goFieldsAux : List Char → List Char → List String
  | acc, [] => if acc = [] then [] else [ofChars acc.reverse]
  | acc, c :: rest =>
    if goIsSpace c then
      if acc = [] then goFieldsAux [] rest
      else ofChars acc.reverse :: goFieldsAux [] rest
    else goFieldsAux (c :: acc) rest

/-- Go `strings.Fields`. -/
def goFields (s : String) : List String := goFieldsAux [] s.toList

/-- Go `strings.Trim` with a cutset of characters, applied to both ends. -/
def goTrimCutset (s : String) (cutset : List Char) : String :=
  ofChars (((s.toList.dropWhile (cutset.contains ·)).reverse.dropWhile
    (cutset.contains ·)).reverse)

/-- Go `strings.TrimSuffix`: remove one occurrence of a suffix, if present. -/
def goTrimOneSuffix (s suf : String) : String :=
  if goEndsWith s suf then ofChars (s.toList.take (s.toList.length - suf.toList.length))
  else s

/-- Go `strings.Split` with a one-character separator. -/
def listSplitOnChar [DecidableEq α] (sep : α) : List α → List (List α)
  | [] => [[]]
  | a :: rest =>
    match listSplitOnChar sep rest with
    | [] => if a = sep then [[], []] else [[a]]
    | grp :: grps => if a = sep then [] :: grp :: grps else (a :: grp) :: grps

/-- Go `strings.Split(s, sep)` for a single-character separator. -/
def goSplitChar (s : String) (sep : Char) : List String :=
  (listSplitOnChar sep s.toList).map ofChars

/-- `replaceAllAux` scans the source once from the left, emitting the
replacement at each (non-overlapping) occurrence of the non-empty pattern
`p :: ps` (Go `strings.ReplaceAll` for a non-empty pattern).  The first
argument counts characters still to be skipped after a match, making the
recursion structural in the scanned list. -/
def replaceAllAux (p : Char) (ps : List Char) (repl : List Char) :
    Nat → List Char → List Char
  | _, [] => []
  | skip + 1, _ :: rest => replaceAllAux p ps repl skip rest
  | 0, c :: rest =>
    if listIsPre (p :: ps) (c :: rest) then
      repl ++ replaceAllAux p ps repl ps.length rest
    else
      c :: replaceAllAux p ps repl 0 rest

/-- Go `strings.ReplaceAll` (the embedded code only ever uses non-empty
patterns; an empty pattern returns the string unchanged here). -/
def goReplaceAll (s pat repl : String) : String :=
  match pat.toList with
  | [] => s
  | p :: ps => ofChars (replaceAllAux p ps repl.toList 0 s.toList)

/-- Digits of a decimal number (helper for `goAtoi`). -/
def digitsVal : List Char → Option Nat
  | [] => none
  | l => l.foldl (fun acc c => match acc with
      | none => none
      | some n => if c.isDigit then some (n * 10 + (c.toNat - 48)) else none)
    (some 0)

/-- Go `strconv.Atoi` (sign and decimal digits; the int64 overflow error of
the original is not modelled, the attribute values in the claims are small). -/
def goAtoi (s : String) : Option Int :=
  match s.toList with
  | [] => none
  | '+' :: ds => (digitsVal ds).map Int.ofNat
  | '-' :: ds => (digitsVal ds).map (fun n => -(Int.ofNat n))
  | ds => (digitsVal ds).map Int.ofNat

/-- Go `strconv.ParseBool`: accepts exactly these strings. -/
def goParseBool (s : String) : Option Bool :=
  if s = "1" || s = "t" || s = "T" || s = "TRUE" || s = "true" || s = "True" then some true
  else if s = "0" || s = "f" || s = "F" || s = "FALSE" || s = "false" || s = "False" then
    some false
  else none

/-- Byte-order comparison of strings as Go `sort.Strings` uses (UTF-8 byte
order equals codepoint order). -/
def charsLt : List Char → List Char → Bool
  | [], [] => false
  | [], _ :: _ => true
  | _ :: _, [] => false
  | a :: as, b :: bs =>
    if a.toNat < b.toNat then true
    else if b.toNat < a.toNat then false
    else charsLt as bs

/-- `strLtB a b` : `a` sorts strictly before `b`. -/
def strLtB (a b : String) : Bool := charsLt a.toList b.toList

/-- Insert into a sorted list (helper for `sortStrings`). -/
def insertSortedStr (a : String) : List String → List String
  | [] => [a]
  | b :: rest => if strLtB b a then b :: insertSortedStr a rest else a :: b :: rest

/-- Go `sort.Strings` (strings are totally ordered, so any sorting
algorithm produces this list). -/
def sortStrings : List String → List String
  | [] => []
  | a :: rest => insertSortedStr a (sortStrings rest)

/-- Go `strings.Join(l, ",")`. -/
def joinComma (l : List String) : String := String.intercalate "," l

/-- Go `strings.Join(l, " ")`. -/
def joinSpace (l : List String) : String := String.intercalate " " l

/-! ## Section 2: Data model (graph types from the source's model file) -/

/-- Scalar attribute value (`type Value = any` in the source; the graph
parser produces strings, integers, booleans — the float and duration
kinds are never consulted by the functions embedded here). -/
inductive GoValue where
  | str (s : String)
  | int (i : Int)
  | bool (b : Bool)
deriving DecidableEq, Repr

/-- Go `fmt.Sprintf("%v", v)` restricted to the modelled value kinds. -/
def GoValue.fmtV : GoValue → String
  | .str s => s
  | .int i => toString i
  | .bool b => if b then "true" else "false"

/-- First-match lookup in an attribute bag. -/
def lookupAttr (attrs : List (String × GoValue)) (k : String) : Option GoValue :=
  (attrs.find? (fun p => p.1 == k)).map (·.2)

/-- A pipeline node: identifier plus attribute bag. -/
structure Node where
  id : String
  attrs : List (String × GoValue)
deriving DecidableEq, Repr

/-- `Node.StringAttr` from the source: missing key gives the default,
a string value is returned as-is, other kinds are `%v`-formatted. -/
def Node.StringAttr (n : Node) (k dflt : String) : String :=
  match lookupAttr n.attrs k with
  | none => dflt
  | some (.str s) => s
  | some v => v.fmtV

/-- `Node.BoolAttr` from the source. -/
def Node.BoolAttr (n : Node) (k : String) (dflt : Bool) : Bool :=
  match lookupAttr n.attrs k with
  | none => dflt
  | some (.bool b) => b
  | some (.str t) =>
    match goParseBool (goTrimSpace t) with
    | some b => b
    | none => dflt
  | some _ => dflt

/-- `Node.IntAttr` from the source. -/
def Node.IntAttr (n : Node) (k : String) (dflt : Int) : Int :=
  match lookupAttr n.attrs k with
  | none => dflt
  | some (.int i) => i
  | some (.str t) =>
    match goAtoi (goTrimSpace t) with
    | some i => i
    | none => dflt
  | some _ => dflt

/-- `Node.Shape()`. -/
def Node.Shape (n : Node) : String := n.StringAttr "shape" "box"

/-- `Node.Type()` (named `nodeType` here because `Type` is reserved). -/
def Node.nodeType (n : Node) : String := n.StringAttr "type" ""

/-- `Node.Label()`. -/
def Node.Label (n : Node) : String := n.StringAttr "label" n.id

/-- A directed edge with its attribute bag. -/
structure Edge where
  fromId : String
  toId : String
  attrs : List (String × GoValue)
deriving DecidableEq, Repr

/-- `Edge.StringAttr` from the source. -/
def Edge.StringAttr (e : Edge) (k dflt : String) : String :=
  match lookupAttr e.attrs k with
  | none => dflt
  | some (.str s) => s
  | some v => v.fmtV

/-- `Edge.IntAttr` from the source. -/
def Edge.IntAttr (e : Edge) (k : String) (dflt : Int) : Int :=
  match lookupAttr e.attrs k with
  | none => dflt
  | some (.int i) => i
  | some (.str t) =>
    match goAtoi (goTrimSpace t) with
    | some i => i
    | none => dflt
  | some _ => dflt

/-- The pipeline graph (`Nodes` is a Go map; it is modelled as an
association list, only keyed lookup is used by the embedded code). -/
structure Graph where
  nodes : List (String × Node)
  edges : List Edge
  attrs : List (String × GoValue)
deriving DecidableEq, Repr

/-- `g.Nodes[id]` (Go map indexing, `nil` when absent). -/
def lookupNode (g : Graph) (id : String) : Option Node :=
  (g.nodes.find? (fun p => p.1 == id)).map (·.2)

/-- Run context (`type Context map[string]any`). -/
abbrev Ctx := List (String × GoValue)

/-- Go `ctx[k].(string)` with the comma-ok form defaulting to `""`. -/
def ctxGetString (ctx : Ctx) (k : String) : String :=
  match lookupAttr ctx k with
  | some (.str s) => s
  | _ => ""

/-- Stage outcome record. -/
structure Outcome where
  schemaVersion : Nat
  outcome : String
  preferredNextLabel : String
  suggestedNextIds : List String
  contextUpdates : List (String × GoValue)
  notes : String
  failureReason : String
deriving DecidableEq, Repr

/-- The zero `Outcome{}` value produced by Go when a function returns early. -/
def Outcome.zero : Outcome := ⟨0, "", "", [], [], "", ""⟩

/-- Observable engine actions emitted during a node visit (events are
appended to `events.jsonl`; the sleep is the 500 ms inter-attempt pause). -/
inductive EngineEvent where
  | stageRetrying (nodeId : String) (retryCount : Nat)
  | sleepMs (ms : Nat)
  | guardrailViolation (nodeId : String) (paths : List String)
deriving DecidableEq, Repr

/-! ## Section 3: Engine definitions (engine.go) -/

/-- `filepath.ToSlash` — the identity on the Linux target the engine runs
on (the path separator is already the forward slash). -/
def toSlash (s : String) : String := s

/-- `splitCSV` from the source. -/
def splitCSV (s : String) : List String :=
  let s := goTrimSpace s
  if s = "" then []
  else ((goSplitChar s ',').map goTrimSpace).filter (fun p => p ≠ "")

/-- Entry validation loop of `ParseAllowedWritePaths` (errors at the first
bad entry, like the source's loop). -/
def parseAWPList : List String → Except String (List String)
  | [] => .ok []
  | p :: rest =>
    let p := goTrimSpace p
    if p = "" then .error "allowed_write_paths contains empty entry"
    else if goStartsWith p "/" then
      .error ("allowed_write_paths contains absolute path: " ++ p)
    else if goContains p ".." then
      .error ("allowed_write_paths contains parent segment: " ++ p)
    else (parseAWPList rest).map (p :: ·)

/-- `ParseAllowedWritePaths` from the source. -/
def ParseAllowedWritePaths (n : Node) : Except String (List String) :=
  let raw := goTrimSpace (n.StringAttr "allowed_write_paths" "")
  if raw = "" then .ok []
  else parseAWPList (goSplitChar raw ',')

/-- `pathAllowed` from engine.go: a trailing-slash entry matches the
directory itself (without the slash) or anything strictly below it; any
other entry matches by equality.  The candidate path is trimmed and
slash-normalized first. -/
def pathAllowed (path : String) (allowed : List String) : Bool :=
  let path := toSlash (goTrimSpace path)
  allowed.any fun entry =>
    if goEndsWith entry "/" then
      let dir := goTrimOneSuffix entry "/"
      path = dir || goStartsWith path (dir ++ "/")
    else path = entry

/-- Workspace diff between two snapshots. -/
structure WorkspaceDiff where
  created : List String
  modified : List String
  deleted : List String
deriving DecidableEq, Repr

/-- The allowlist-entry normalization performed by `disallowedDiffPaths`
and `unfixableFailureSourceReason`. -/
def normalizeAllowedEntries (allowed : List String) : List String :=
  (allowed.map (fun p => toSlash (goTrimSpace p))).filter (fun p => p ≠ "")

/-- `disallowedDiffPaths` from engine.go. -/
def disallowedDiffPaths (d : WorkspaceDiff) (allowed : List String) : List String :=
  let normalized := normalizeAllowedEntries allowed
  let all := d.created ++ d.modified ++ d.deleted
  sortStrings (all.filter (fun p => !pathAllowed p normalized))

/-- `isExecutableNode` from engine.go. -/
def isExecutableNode (node : Node) : Bool :=
  let t := node.nodeType
  if t = "" then node.Shape = "box" || node.Shape = "parallelogram"
  else t = "codergen" || t = "tool"

/-- `isCodergenNode` from engine.go. -/
def isCodergenNode (node : Node) : Bool :=
  let t := node.nodeType
  if t = "" then node.Shape = "box" else t = "codergen"

/-- The handler kind `resolveHandler` dispatches to, as a string. -/
def resolvedKind (node : Node) : String :=
  let typ := node.nodeType
  let typ :=
    if typ = "" then
      if node.Shape = "Mdiamond" then "start"
      else if node.Shape = "Msquare" then "exit"
      else if node.Shape = "parallelogram" then "tool"
      else "codergen"
    else typ
  if typ = "start" then "start"
  else if typ = "exit" then "exit"
  else if typ = "tool" then "tool"
  else if typ = "verification" then "verification"
  else "codergen"

/-- The post-handler allowlist guardrail step of `executeNode`
(engine.go lines 432–445): on an executable node with a non-empty parsed
allowlist and a non-empty violation list, the outcome is overridden to a
failure naming the violations and a `GuardrailViolation` event is
emitted; otherwise the handler outcome passes through unchanged. -/
def guardrailCheck (node : Node) (diff : WorkspaceDiff) (out : Outcome) :
    Except String (Outcome × List EngineEvent) :=
  if isExecutableNode node then
    match ParseAllowedWritePaths node with
    | .error e => .error e
    | .ok allowed =>
      if 0 < allowed.length then
        let violations := disallowedDiffPaths diff allowed
        if 0 < violations.length then
          .ok ({ out with
                  outcome := "fail",
                  failureReason :=
                    "guardrail_violation: wrote disallowed files: " ++ joinComma violations },
               [.guardrailViolation node.id violations])
        else .ok (out, [])
      else .ok (out, [])
  else .ok (out, [])

/-- The comparator passed to `sort.Slice` in `selectNext`: strictly
greater weight first, then strictly smaller target id. -/
def edgeBefore (a b : Edge) : Bool :=
  let wa := a.IntAttr "weight" 0
  let wb := b.IntAttr "weight" 0
  if wa ≠ wb then decide (wb < wa) else strLtB a.toId b.toId

/-- First minimal element under `edgeBefore`.  The source sorts with an
unstable sort and takes the head; any two elements that are tied under
the comparator have equal weight and equal target id, so the head's
target — the only thing `selectNext` returns — is the target of any
minimal element, which this fold computes. -/
def pickStep (best x : Edge) : Edge := if edgeBefore x best then x else best

def pickBest : List Edge → Option Edge
  | [] => none
  | e :: es => some (es.foldl pickStep e)

/-- The candidate set of `Engine.selectNext`: among the node's outgoing
edges, the conditionals whose trimmed condition equals `outcome=<tag>`
when any exist, otherwise the edges with empty condition (non-matching
conditionals are discarded by the loop). -/
def routeCands (edges : List Edge) (src outcome : String) : List Edge :=
  let outEdges := edges.filter (fun e => e.fromId == src)
  let conds := outEdges.filter (fun e =>
    goTrimSpace (e.StringAttr "condition" "") ≠ "" &&
    goTrimSpace (e.StringAttr "condition" "") = "outcome=" ++ outcome)
  let unconds := outEdges.filter (fun e => goTrimSpace (e.StringAttr "condition" "") = "")
  if conds.length = 0 then unconds else conds

/-- `Engine.selectNext` from engine.go (the engine passes the graph's
edge list): sort the candidates best-first and return the first target,
or the empty string when there is no candidate. -/
def selectNext (edges : List Edge) (src outcome : String) : String :=
  match pickBest (routeCands edges src outcome) with
  | none => ""
  | some e => e.toId

/-- Result of the attempt loop of `Engine.executeNode`: the final outcome,
the node's final retry counter, the last value written to
`internal.retry_count.<node_id>` (if any), the emitted events and sleeps in
order, and the number of handler executions. -/
structure RetryResult where
  out : Outcome
  retryCount : Nat
  ctxRetry : Option Nat
  events : List EngineEvent
  execs : Nat
deriving DecidableEq, Repr

/-- The event/sleep pattern the attempt loop emits for `k` consecutive
non-final `retry` outcomes, starting from retry counter `rc`: each retry
emits `StageRetrying` with the incremented counter and is followed by the
500 ms sleep before the next attempt. -/
def retryEvents (nodeId : String) (rc k : Nat) : List EngineEvent :=
  match k with
  | 0 => []
  | k + 1 =>
    EngineEvent.stageRetrying nodeId (rc + 1) :: EngineEvent.sleepMs 500 ::
      retryEvents nodeId (rc + 1) k

/-- The exhausted-attempts transform (engine.go lines 455–464): the last
attempt still reported `retry`, so promote to `partial_success` when
`allow_partial` is set, otherwise demote to `fail` keeping an existing
failure reason and defaulting to `retry_exhausted`. -/
def exhaustedRetryOutcome (partialOK : Bool) (out : Outcome) : Outcome :=
  if partialOK then { out with outcome := "partial_success" }
  else { out with
          outcome := "fail",
          failureReason :=
            if out.failureReason = "" then "retry_exhausted" else out.failureReason }

/-- The attempt loop of `Engine.executeNode` (engine.go lines 396–467).
`step i` is the outcome the body of attempt `i` hands to the retry policy —
the handler result after the `requires_tool_success` coercion and the
write-allowlist guardrail of that attempt.  `remaining` is the number of
attempts still permitted including the current one; a non-final `retry`
outcome bumps the counter, writes it to context, emits `StageRetrying`,
sleeps 500 ms and loops; on the final attempt a `retry` outcome is promoted
to `partial_success` when `allow_partial` is set and otherwise demoted to
`fail` with reason `retry_exhausted` unless a reason is already present. -/
def retryLoop (nodeId : String) (partialOK : Bool) (step : Nat → Outcome) :
    Nat → Nat → Nat → Option Nat → List EngineEvent → Nat → RetryResult
  | 0, _, rc, ctx, events, execs => ⟨Outcome.zero, rc, ctx, events, execs⟩
  | remaining + 1, attempt, rc, ctx, events, execs =>
    let out := step attempt
    if out.outcome = "retry" ∧ remaining ≠ 0 then
      retryLoop nodeId partialOK step remaining (attempt + 1) (rc + 1) (some (rc + 1))
        (events ++ [.stageRetrying nodeId (rc + 1), .sleepMs 500]) (execs + 1)
    else if out.outcome = "retry" ∧ remaining = 0 then
      ⟨exhaustedRetryOutcome partialOK out, rc, ctx, events, execs + 1⟩
    else ⟨out, rc, ctx, events, execs + 1⟩

/-- `Engine.executeNode`'s use of the attempt loop: `attempts` is
`max_retries + 1` (default 0; a negative attribute yields zero attempts and
the zero outcome, exactly like the Go loop).  `rc0` is the engine's retry
counter for this node when the visit starts (0 on a fresh run). -/
def executeNodeRetry (node : Node) (rc0 : Nat) (step : Nat → Outcome) : RetryResult :=
  let maxRetries := node.IntAttr "max_retries" 0
  let partialOK := node.BoolAttr "allow_partial" false
  retryLoop node.id partialOK step (maxRetries + 1).toNat 0 rc0 none [] 0

/-- `isPathTokenBoundary` from engine.go. -/
def isPathTokenBoundary (c : Char) : Bool :=
  c = '/' || c = ' ' || c = '\t' || c = '\n' || c = '\r' || c = ';' || c = '&' ||
  c = '|' || c = '(' || c = ')' || c = squoteChar || c = dquoteChar

/-- `prevBoundary` in `containsParentSegmentToken`: the character before
the current scan window is absent (`i == 0`) or a path token boundary. -/
def prevBool : Option Char → Bool
  | none => true
  | some c => isPathTokenBoundary c

/-- `nextBoundary`: the character after the `..` window is absent (end of
string) or a path token boundary. -/
def nextBool : List Char → Bool
  | [] => true
  | c3 :: _ => isPathTokenBoundary c3

/-- Scanner of `containsParentSegmentToken`: walks the command one
character at a time carrying the previous character (`none` at the start),
and fires on a `".."` whose neighbour on each side is absent or a path
token boundary. -/
def cpstAux : Option Char → List Char → Bool
  | _, [] => false
  | _, [_] => false
  | prev, c1 :: c2 :: rest =>
    if c1 = '.' ∧ c2 = '.' then
      if prevBool prev && nextBool rest then true else cpstAux (some c1) (c2 :: rest)
    else cpstAux (some c1) (c2 :: rest)

/-- `containsParentSegmentToken` from engine.go. -/
def containsParentSegmentToken (cmd : String) : Bool := cpstAux none cmd.toList

/-- `validateToolCommand` from engine.go, as the optional rejection
message (`none` = the command passes the static filter). -/
def validateToolCommand (cmd : String) : Option String :=
  if goContains cmd "~" then some "tool_command rejected by guardrail: contains ~"
  else if containsParentSegmentToken cmd then
    some "tool_command rejected by guardrail: contains .."
  else if (goFields cmd).any
      (fun t => goStartsWith (goTrimCutset t [squoteChar, dquoteChar]) "/") then
    some "tool_command rejected by guardrail: contains absolute path"
  else none

/-- What `toolHandler.Execute` decides before any subprocess concern:
missing command is a handler error, a statically rejected command returns a
`fail` outcome without starting a subprocess, anything else proceeds to
`sh -c` (engine.go lines 626–634). -/
inductive ToolExecPlan where
  | missingCommand
  | staticReject (out : Outcome)
  | runSubprocess (cmdText : String)
deriving DecidableEq, Repr

/-- The pre-subprocess part of `toolHandler.Execute`. -/
def toolHandlerPlan (node : Node) : ToolExecPlan :=
  let cmdText := goTrimSpace (node.StringAttr "tool_command" "")
  if cmdText = "" then .missingCommand
  else match validateToolCommand cmdText with
    | some msg => .staticReject ⟨1, "fail", "", [], [], "", msg⟩
    | none => .runSubprocess cmdText

/-- Segment-stack cleaning used by `goClean` (Go `path/filepath.Clean`). -/
def cleanSegs (abs : Bool) : List String → List String → List String
  | stack, [] => stack.reverse
  | stack, seg :: rest =>
    if seg = "" ∨ seg = "." then cleanSegs abs stack rest
    else if seg = ".." then
      match stack with
      | top :: stack' =>
        if top = ".." then cleanSegs abs (".." :: top :: stack') rest
        else cleanSegs abs stack' rest
      | [] => if abs then cleanSegs abs [] rest else cleanSegs abs [".."] rest
    else cleanSegs abs (seg :: stack) rest

/-- Go `filepath.Clean` on slash paths (the engine runs on Linux where
`FromSlash`/`ToSlash` are the identity). -/
def goClean (p : String) : String :=
  if p = "" then "."
  else
    let abs := goStartsWith p "/"
    let segs := cleanSegs abs [] (goSplitChar p '/')
    if abs then "/" ++ String.intercalate "/" segs
    else if segs = [] then "."
    else String.intercalate "/" segs

/-- `extractToolScriptPaths` from engine.go: whitespace tokens of the tool
command, quote-trimmed, skipping flags and `=`-containing tokens, keeping
cleaned tokens that end in `.sh`. -/
def extractToolScriptPaths (cmd : String) : List String :=
  (goFields cmd).filterMap fun tok =>
    let t := goTrimCutset tok [dquoteChar, squoteChar]
    if t = "" ∨ goStartsWith t "-" then none
    else if goContains t "=" then none
    else if goEndsWith t ".sh" then some (toSlash (goClean t))
    else none

/-- `Engine.unfixableFailureSourceReason` from engine.go: the optional
abort reason computed before a codergen node executes. -/
def unfixableFailureSourceReason (g : Graph) (ctx : Ctx) (node : Node) : Option String :=
  if !isCodergenNode node then none
  else
    let failedNodeID := goTrimSpace (ctxGetString ctx "last_failure.node_id")
    if failedNodeID = "" then none
    else match lookupNode g failedNodeID with
      | none => none
      | some failedNode =>
        if failedNode.nodeType ≠ "tool" then none
        else
          let cmd := goTrimSpace (failedNode.StringAttr "tool_command" "")
          if cmd = "" then none
          else
            let sourcePaths := extractToolScriptPaths cmd
            if sourcePaths = [] then none
            else match ParseAllowedWritePaths node with
              | .error e =>
                some ("invalid allowed_write_paths on node " ++ node.id ++ ": " ++ e)
              | .ok allowed =>
                if allowed = [] then none
                else
                  let normalized := normalizeAllowedEntries allowed
                  let outside := sourcePaths.filter (fun src => !pathAllowed src normalized)
                  if outside = [] then none
                  else
                    some ("unfixable_failure_source: failed node " ++ failedNodeID ++
                      " references " ++ joinComma (sortStrings outside) ++
                      " outside allowed_write_paths for " ++ node.id)

/-- The guardrail gate at the top of `Engine.executeNode` (lines 390–392):
a blocked node aborts the run with the reason as the engine error, before
the handler is even resolved. -/
def executeNodeGate (g : Graph) (ctx : Ctx) (node : Node) : Except String Unit :=
  match unfixableFailureSourceReason g ctx node with
  | some reason => .error reason
  | none => .ok ()

/-! ## Section 4: Verification subsystem (part_009, verification_plan.go) -/

/-- ASCII letter or underscore (first character of an env key). -/
def isAsciiLetterU (c : Char) : Bool :=
  decide (65 ≤ c.toNat ∧ c.toNat ≤ 90) || decide (97 ≤ c.toNat ∧ c.toNat ≤ 122) || c = '_'

/-- ASCII letter, digit or underscore (later characters of an env key). -/
def isAsciiAlnumU (c : Char) : Bool :=
  isAsciiLetterU c || decide (48 ≤ c.toNat ∧ c.toNat ≤ 57)

/-- `isEnvAssignmentToken` from part_009: `KEY=...` where `KEY` matches
`[A-Za-z_][A-Za-z0-9_]*`, rejecting tokens that start or end with `=`. -/
def isEnvAssignmentToken (tok : String) : Bool :=
  if tok = "" || goStartsWith tok "=" || goEndsWith tok "=" then false
  else match goIndexOfChar tok '=' with
    | none => false
    | some eq =>
      if eq = 0 then false
      else match tok.toList.take eq with
        | [] => false
        | c :: rest => isAsciiLetterU c && rest.all isAsciiAlnumU

/-- `hasUnsafeShellSyntax` from part_009 (the backtick is written
numerically).  Note this runs before any allowlist normalization. -/
def hasShellMetachars (command : String) : Bool :=
  let c := goTrimSpace command
  goContains c "&&" || goContains c "||" || goContains c ";" || goContains c "|" ||
  goContains c (ofChars [Char.ofNat 96]) || goContains c "$(" || goContains c ">" ||
  goContains c "<" || goContains c "\n" || goContains c "\r"

/-- The loop body of `trimWrappingParens`: peel one layer of wrapping
parentheses while the interior stays non-empty. -/
def trimParensLoop : Nat → String → String
  | 0, s => s
  | fuel + 1, s =>
    if 2 ≤ s.toList.length ∧ goStartsWith s "(" ∧ goEndsWith s ")" then
      let inner := goTrimSpace (ofChars ((s.toList.drop 1).dropLast))
      if inner = "" then s else trimParensLoop fuel inner
    else s

/-- `trimWrappingParens` from part_009 (each peel removes at least two
characters, so a fuel of the length always reaches the loop's exit). -/
def trimWrappingParens (cmd : String) : String :=
  let s := goTrimSpace cmd
  trimParensLoop s.toList.length s

/-- `stripLeadingEnvAssignments` from part_009: drop the leading run of
env-assignment tokens; when nothing is dropped the command is returned
verbatim, otherwise the remaining fields are rejoined with single spaces. -/
def stripLeadingEnvAssignments (cmd : String) : String :=
  let fields := goFields cmd
  let rest := fields.dropWhile isEnvAssignmentToken
  if rest.length = fields.length then cmd else joinSpace rest

/-- `stripLeadingShellWrappers` from part_009: remove one leading
`export … && ` or `cd … && ` wrapper (only when a `&&` is present). -/
def stripLeadingShellWrappers (cmd : String) : String :=
  let trimmed := goTrimSpace cmd
  let afterExport : Option String :=
    if goStartsWith trimmed "export " then
      match goIndexOfSub trimmed "&&" with
      | some i => some (goTrimSpace (strDrop trimmed (i + 2)))
      | none => none
    else none
  match afterExport with
  | some r => r
  | none =>
    if goStartsWith trimmed "cd " then
      match goIndexOfSub trimmed "&&" with
      | some i => goTrimSpace (strDrop trimmed (i + 2))
      | none => cmd
    else cmd

/-- One pass of the fixed-point loop in `normalizeCommandForAllowlist`. -/
def normalizeOnce (cmd : String) : String :=
  goTrimSpace (stripLeadingShellWrappers (stripLeadingEnvAssignments (trimWrappingParens cmd)))

/-- The fixed-point loop.  Every changing pass strictly shrinks the
character count (each stage is length-non-increasing and a change
shrinks), so a fuel of `length + 1` always reaches the fixed point the Go
loop computes. -/
def normalizeLoop : Nat → String → String
  | 0, cmd => cmd
  | fuel + 1, cmd =>
    let next := normalizeOnce cmd
    if next = cmd then cmd else normalizeLoop fuel next

/-- `normalizeCommandForAllowlist` from part_009. -/
def normalizeCommandForAllowlist (command : String) : String :=
  let cmd := goTrimSpace command
  normalizeLoop (cmd.toList.length + 1) cmd

/-- `commandAllowed` from part_009: reject on shell metacharacters, then
normalize and compare against the allowlist prefixes. -/
def commandAllowed (command : String) (allowedPre : List String) : Bool :=
  if hasShellMetachars command then false
  else
    let cmd := normalizeCommandForAllowlist command
    allowedPre.any fun p =>
      let q := goTrimSpace p
      if q = "" then false
      else cmd = q || goStartsWith cmd (q ++ " ")

/-- Modelled subset of Go `strconv.Unquote` covering the values the
embedded call sites feed it: an escape-free double-quoted string yields
its interior, a single-quoted single ordinary character yields that
character, anything containing escapes is out of the modelled subset and
reported as a failure (the caller then falls back to stripping the outer
quote characters). -/
def goUnquote (s : String) : Option String :=
  let l := s.toList
  if 2 ≤ l.length ∧ l.head? = some dquoteChar ∧ l.getLast? = some dquoteChar then
    let inner := (l.drop 1).dropLast
    if inner.all (fun c => !(c == bslashChar || c == dquoteChar || c == '\n')) then
      some (ofChars inner)
    else none
  else if 2 ≤ l.length ∧ l.head? = some squoteChar ∧ l.getLast? = some squoteChar then
    match (l.drop 1).dropLast with
    | [c] => if !(c == bslashChar || c == squoteChar || c == '\n') then some (ofChars [c])
             else none
    | _ => none
  else none

/-- `expandVerificationEnvValue` from part_009: trim, unquote a fully
quoted value (falling back to bare quote-stripping when unquoting fails),
then substitute `$PWD` and `${PWD}` with the working directory. -/
def expandVerificationEnvValue (raw workingDir : String) : String :=
  let raw := goTrimSpace raw
  let l := raw.toList
  let raw :=
    if 2 ≤ l.length ∧
        ((l.head? = some dquoteChar ∧ l.getLast? = some dquoteChar) ∨
         (l.head? = some squoteChar ∧ l.getLast? = some squoteChar)) then
      match goUnquote raw with
      | some u => u
      | none => ofChars ((l.drop 1).dropLast)
    else raw
  goReplaceAll (goReplaceAll raw "$PWD" workingDir) "${PWD}" workingDir

/-- Result of `parseVerificationCommand`: environment bindings, the
executable name, and its arguments. -/
structure ParsedVerificationCommand where
  env : List String
  name : String
  args : List String
deriving DecidableEq, Repr

/-- `parseVerificationCommand` from part_009: trim, reject shell
metacharacters, whitespace-split, turn the leading run of env-assignment
tokens into expanded bindings, and use the remaining tokens directly as
executable and argv — no shell is involved. -/
def parseVerificationCommand (command workingDir : String) :
    Except String ParsedVerificationCommand :=
  let command := goTrimSpace command
  if command = "" then .error "verification command cannot be empty"
  else if hasShellMetachars command then
    .error "verification command rejected: contains unsafe shell syntax"
  else
    let fields := goFields command
    if fields = [] then .error "verification command cannot be empty"
    else
      let envToks := fields.takeWhile isEnvAssignmentToken
      let rest := fields.dropWhile isEnvAssignmentToken
      let env := envToks.map fun tok =>
        match goIndexOfChar tok '=' with
        | some eq =>
          strTake tok eq ++ "=" ++ expandVerificationEnvValue (strDrop tok (eq + 1)) workingDir
        | none => tok
      match rest with
      | [] => .error "verification command missing executable"
      | name :: args => .ok ⟨env, name, args⟩

/-- Go `filepath.Rel` modelled for the already-cleaned inputs
`normalizeVerificationPath` supplies: mixing an absolute with a relative
path fails; otherwise walk off the common segment prefix, and climb with
`..` for each remaining base segment. -/
def goRel (base targ : String) : Option String :=
  let baseAbs := goStartsWith base "/"
  let targAbs := goStartsWith targ "/"
  if baseAbs ≠ targAbs then none
  else
    let bsegs := (goSplitChar base '/').filter (fun s => s ≠ "" && s ≠ ".")
    let tsegs := (goSplitChar targ '/').filter (fun s => s ≠ "" && s ≠ ".")
    let rec dropCommon : List String → List String → List String × List String
      | b :: bs, t :: ts => if b = t then dropCommon bs ts else (b :: bs, t :: ts)
      | bs, ts => (bs, ts)
    let (brem, trem) := dropCommon bsegs tsegs
    if brem.any (fun s => s = "..") then none
    else
      let segs := brem.map (fun _ => "..") ++ trem
      if segs = [] then some "." else some (String.intercalate "/" segs)

/-- Go `%q` for the plain strings that reach it here. -/
def goQuote (s : String) : String := ofChars [dquoteChar] ++ s ++ ofChars [dquoteChar]

/-- `normalizeVerificationPath` from verification_plan.go. -/
def normalizeVerificationPath (p workspace : String) : Except String String :=
  let p := goTrimSpace p
  if p = "" then .error "path is empty"
  else if goContains p "~" then .error "~ is not allowed"
  else
    let pstep : Except String String :=
      if goStartsWith p "/" then
        if goTrimSpace workspace = "" then .error "absolute paths are not allowed"
        else match goRel (goClean workspace) (goClean p) with
          | none => .error "absolute path is not under workspace"
          | some rel => .ok rel
      else .ok p
    match pstep with
    | .error e => .error e
    | .ok p2 =>
      let clean := toSlash (goClean p2)
      if (goSplitChar clean '/').any (fun seg => seg = "..") then
        .error "parent path segments are not allowed"
      else .ok clean

/-- A structured verification plan (post-JSON decoding; the Go function's
JSON round-trip of its `any` argument is not modelled — the claims
quantify over well-typed plans). -/
structure VerificationPlan where
  files : List String
  commands : List String
deriving DecidableEq, Repr

/-- Effectful map over `Except`, failing at the first error (the shape of
the Go `for` loops with early `return`). -/
def mapMExcept (f : α → Except String β) : List α → Except String (List β)
  | [] => .ok []
  | a :: rest =>
    match f a with
    | .error e => .error e
    | .ok b => (mapMExcept f rest).map (b :: ·)

/-- `parseVerificationPlan` from verification_plan.go: normalize every
file path (wrapping the first failure), trim every command rejecting empty
ones, and reject a plan with no commands at all. -/
def parseVerificationPlan (files commands : List String) (workspace : String) :
    Except String VerificationPlan :=
  match mapMExcept (fun f =>
      match normalizeVerificationPath f workspace with
      | .error e => .error ("invalid verification file path " ++ goQuote f ++ ": " ++ e)
      | .ok c => .ok c) files with
  | .error e => .error e
  | .ok files2 =>
    match mapMExcept (fun c =>
        let c2 := goTrimSpace c
        if c2 = "" then .error "verification command cannot be empty" else .ok c2) commands with
    | .error e => .error e
    | .ok commands2 =>
      if commands2.length = 0 then .error "verification plan must contain at least one command"
      else .ok ⟨files2, commands2⟩

/-! ## Section 5: Filesystem model and hide/restore (agent_codex.go)

The workspace is modelled as a tree of directories and files; a file
carries an opaque payload identifier.  `os.Rename` of the protocol is
split into its two effects on this model: `detach` (remove a subtree,
returning it) and `place` (attach a subtree at a path whose parent exists
and which is itself vacant — the protocol always `Stat`s the destination
first, so a rename onto an existing path never happens on the modelled
paths).  `mkdirAll` is `os.MkdirAll`, failing when a non-directory sits on
the way.  The hidden area lives under the node's artifact directory,
outside the workspace, and only the protocol touches it between hide and
restore; a hidden entry is therefore modelled as the original location
paired with the moved subtree itself. -/

/-- A filesystem node. -/
inductive FsTree where
  | file (id : Nat)
  | dir (children : List (String × FsTree))

/-- Lookup a child by name. -/
def childLookup (cs : List (String × FsTree)) (s : String) : Option FsTree :=
  (cs.find? (fun p => p.1 == s)).map (·.2)

/-- Replace the binding of a name (append when absent). -/
def childSet (cs : List (String × FsTree)) (s : String) (t : FsTree) :
    List (String × FsTree) :=
  match cs with
  | [] => [(s, t)]
  | (k, v) :: rest => if k = s then (s, t) :: rest else (k, v) :: childSet rest s t

/-- Remove every binding of a name. -/
def childRemove (cs : List (String × FsTree)) (s : String) : List (String × FsTree) :=
  cs.filter (fun p => !(p.1 == s))

/-- Follow a segment path down the tree. -/
def FsTree.lookupP : FsTree → List String → Option FsTree
  | t, [] => some t
  | .file _, _ :: _ => none
  | .dir cs, s :: rest =>
    match childLookup cs s with
    | none => none
    | some c => c.lookupP rest

/-- Remove the subtree at a non-empty path, returning the remaining tree
and the removed subtree (the source side of `os.Rename`). -/
def FsTree.detach : FsTree → List String → Option (FsTree × FsTree)
  | _, [] => none
  | .file _, _ :: _ => none
  | .dir cs, [s] =>
    match childLookup cs s with
    | none => none
    | some c => some (.dir (childRemove cs s), c)
  | .dir cs, s :: r :: rest =>
    match childLookup cs s with
    | none => none
    | some c =>
      match c.detach (r :: rest) with
      | none => none
      | some (c2, sub) => some (.dir (childSet cs s c2), sub)

/-- Attach a subtree at a non-empty vacant path whose parent chain exists
(the destination side of `os.Rename` after the protocol's `Stat` check). -/
def FsTree.place : FsTree → List String → FsTree → Option FsTree
  | _, [], _ => none
  | .file _, _ :: _, _ => none
  | .dir cs, [s], sub =>
    match childLookup cs s with
    | some _ => none
    | none => some (.dir (cs ++ [(s, sub)]))
  | .dir cs, s :: r :: rest, sub =>
    match childLookup cs s with
    | none => none
    | some c =>
      match c.place (r :: rest) sub with
      | none => none
      | some c2 => some (.dir (childSet cs s c2))

/-- `os.MkdirAll`: create the directory chain at `p`, failing when a file
is in the way. -/
def FsTree.mkdirAll : FsTree → List String → Option FsTree
  | .dir cs, [] => some (.dir cs)
  | .file _, _ => none
  | .dir cs, s :: rest =>
    match childLookup cs s with
    | none =>
      match FsTree.mkdirAll (.dir []) rest with
      | none => none
      | some c => some (.dir (cs ++ [(s, c)]))
    | some c =>
      match c.mkdirAll rest with
      | none => none
      | some c2 => some (.dir (childSet cs s c2))

/-- Names of the top-level entries of the workspace. -/
def FsTree.topNames : FsTree → List String
  | .file _ => []
  | .dir cs => cs.map (·.1)

/-- Segment path of a blocked entry, as `filepath.Join(workspace,
filepath.FromSlash(rel))` resolves it (Join cleans the path; an empty
result denotes the workspace root itself). -/
def relSegments (r : String) : List String :=
  (goSplitChar (goClean r) '/').filter (fun t => t ≠ "" && t ≠ ".")

/-- The source's parent-segment validation: a `..` among the segments of
the cleaned path. -/
def cleanHasParentSeg (r : String) : Bool :=
  (goSplitChar (goClean r) '/').any (fun seg => seg = "..")

/-- One recorded hide: the original location and the subtree that was
moved away (see the section comment). -/
structure HidePair where
  orig : List String
  sub : FsTree

/-- The loop of `hideWorkspacePaths` over the sorted blocked paths: skip
blank entries, validate relativity and parent segments, skip entries that
do not exist, and move existing ones into the hidden area, recording them
in move order.  The only rename that can fail on the modelled paths is an
attempt to move the workspace root itself (a blocked path cleaning to
`.`); the source restores the already-moved entries and errors — the
error value is all the model keeps of that branch. -/
def hideLoop : FsTree → List HidePair → List String → Except String (FsTree × List HidePair)
  | ws, hidden, [] => .ok (ws, hidden)
  | ws, hidden, rel :: rest =>
    let r := toSlash (goTrimSpace rel)
    if r = "" then hideLoop ws hidden rest
    else if goStartsWith r "/" then
      .error ("blocked read path " ++ goQuote r ++ " must be relative")
    else if cleanHasParentSeg r then
      .error ("blocked read path " ++ goQuote r ++ " contains parent segment")
    else
      let origSegs := relSegments r
      match ws.lookupP origSegs with
      | none => hideLoop ws hidden rest
      | some _ =>
        match ws.detach origSegs with
        | none => .error "rename failed"
        | some (ws2, sub) => hideLoop ws2 (hidden ++ [⟨origSegs, sub⟩]) rest

/-- `hideWorkspacePaths` from agent_codex.go. -/
def hideWorkspacePaths (ws : FsTree) (blocked : List String) :
    Except String (FsTree × List HidePair) :=
  if blocked.length = 0 then .ok (ws, [])
  else hideLoop ws [] (sortStrings blocked)

/-- Slash-join of a segment path (for error messages). -/
def joinSegs (p : List String) : String := String.intercalate "/" p

/-- The loop of `restoreWorkspacePaths`, processing the recorded pairs in
the given order (the wrapper reverses the move order first): recreate the
parent chain, fail loudly when the original path exists again, otherwise
move the subtree back.  The pair returns the workspace as mutated so far
together with the optional error — on error the remaining pairs are left
un-restored, exactly like the source's early `return`. -/
def restoreLoop : FsTree → List HidePair → FsTree × Option String
  | ws, [] => (ws, none)
  | ws, h :: rest =>
    match ws.mkdirAll h.orig.dropLast with
    | none => (ws, some ("mkdir failed: " ++ joinSegs h.orig))
    | some ws1 =>
      match ws1.lookupP h.orig with
      | some _ =>
        (ws1, some ("blocked path was recreated during execution: " ++ joinSegs h.orig))
      | none =>
        match ws1.place h.orig h.sub with
        | none => (ws1, some ("rename failed: " ++ joinSegs h.orig))
        | some ws2 => restoreLoop ws2 rest

/-- `restoreWorkspacePaths` from agent_codex.go: entries are restored in
reverse order of the moves. -/
def restoreWorkspacePaths (ws : FsTree) (hidden : List HidePair) : FsTree × Option String :=
  restoreLoop ws hidden.reverse

/-! ## Section 6: Spec-side definitions

Definitions in this section follow the specification's wording (not the
code); the theorems below compare them against the embedded code. -/

/-- Boundary test at an index: out-of-range neighbours count as the start
or end of the string (claim C4's wording). -/
def boundaryAt (l : List Char) (i : Nat) : Prop :=
  match l.get? i with
  | some c => isPathTokenBoundary c = true
  | none => True

/-- Condition the scanner inherits from the character preceding the
current window (`none` at the very start of the string). -/
def prevOK : Option Char → Prop
  | none => True
  | some c => isPathTokenBoundary c = true

/-- Parametrised spec of a boundary-flanked `..` at index `i`, carrying
the character before the scanned window. -/
def dotSpecAt (pr : Option Char) (l : List Char) (i : Nat) : Prop :=
  l.get? i = some '.' ∧ l.get? (i + 1) = some '.' ∧
  (if i = 0 then prevOK pr else boundaryAt l (i - 1)) ∧ boundaryAt l (i + 2)

/-- Claim C4's description of a rejected `..`: a `..` at index `i` whose
left neighbour is the start of the string or a boundary character, and
whose right neighbour is the end of the string or a boundary character. -/
def specDotDotAt (l : List Char) (i : Nat) : Prop :=
  l.get? i = some '.' ∧ l.get? (i + 1) = some '.' ∧
  (i = 0 ∨ boundaryAt l (i - 1)) ∧ boundaryAt l (i + 2)


/-- Claim C1's allowlist matching relation (spec section 4.3): an entry
ending in `/` matches the path equal to the entry without the trailing
slash, or any path beginning with that prefix plus `/`; any other entry
matches only the identical path. -/
def specPathMatch (entry path : String) : Bool :=
  if goEndsWith entry "/" then
    let dir := goTrimOneSuffix entry "/"
    path = dir || goStartsWith path (dir ++ "/")
  else path = entry

/-- Segment-path weak prefix: `p` followed by some remainder gives `q`. -/
def SegPre (p q : List String) : Prop := ∃ r, q = p ++ r

/-- The path is either absent or resolves to a directory (never a file);
this is what `os.MkdirAll` needs of every point along its chain. -/
def dirOrMissing (t : FsTree) (p : List String) : Prop :=
  ∀ i, t.lookupP p ≠ some (.file i)

/-- Relation between an earlier move `e` and a later move `l` of the same
hide pass: the earlier original is never a weak prefix of the later one
(its whole subtree was already gone), and when the later original is a
strict prefix of the earlier one, the later subtree has a hole where the
earlier entry was detached from it, with directories on the way. -/
def moveR (e l : HidePair) : Prop :=
  ¬ SegPre e.orig l.orig ∧
  ∀ rem, e.orig = l.orig ++ rem →
    l.sub.lookupP rem = none ∧
    ∀ r1 r2, rem = r1 ++ r2 → r2 ≠ [] → dirOrMissing l.sub r1

/-! ## Section 7: Lemmas and claim theorems -/

lemma ofChars_toList (l : List Char) : (ofChars l).toList = l := rfl

lemma dropWhile_dropWhile (p : α → Bool) (l : List α) :
    (l.dropWhile p).dropWhile p = l.dropWhile p := by
  induction l with
  | nil => rfl
  | cons a rest ih =>
    by_cases h : p a
    · simp [List.dropWhile_cons, h, ih]
    · simp [List.dropWhile_cons, h]

lemma head?_dropWhile_false (p : α → Bool) (l : List α) :
    ∀ a, (l.dropWhile p).head? = some a → p a = false := by
  induction l with
  | nil => intro a h; simp at h
  | cons b rest ih =>
    intro a h
    by_cases hb : p b
    · exact ih a (by simpa [List.dropWhile_cons, hb] using h)
    · simp [List.dropWhile_cons, hb] at h
      subst h
      simpa using hb

lemma dropWhile_eq_self_of_head (p : α → Bool) (l : List α)
    (h : ∀ a, l.head? = some a → p a = false) : l.dropWhile p = l := by
  cases l with
  | nil => rfl
  | cons a rest =>
    have : p a = false := h a rfl
    simp [List.dropWhile_cons, this]

lemma trimmed_head_not_space (l : List Char) :
    ∀ a, (((l.dropWhile goIsSpace).reverse.dropWhile goIsSpace).reverse).head? = some a →
      goIsSpace a = false := by
  intro a ha
  rw [List.head?_reverse] at ha
  have hne : (l.dropWhile goIsSpace).reverse.dropWhile goIsSpace ≠ [] := by
    intro h
    rw [h] at ha
    simp at ha
  have hsplit := List.takeWhile_append_dropWhile goIsSpace (l.dropWhile goIsSpace).reverse
  have hlast : ((l.dropWhile goIsSpace).reverse).getLast? = some a := by
    conv_lhs => rw [← hsplit]
    rw [List.getLast?_append_of_ne_nil _ hne]
    exact ha
  rw [List.getLast?_reverse] at hlast
  exact head?_dropWhile_false goIsSpace l a hlast

lemma goTrimSpace_idem (s : String) : goTrimSpace (goTrimSpace s) = goTrimSpace s := by
  unfold goTrimSpace
  rw [ofChars_toList]
  congr 1
  rw [dropWhile_eq_self_of_head goIsSpace _ (trimmed_head_not_space s.toList)]
  rw [List.reverse_reverse, dropWhile_dropWhile]

lemma mapMExcept_ok_of_forall (f : α → Except String β) :
    ∀ l : List α, (∀ a ∈ l, ∃ b, f a = .ok b) → ∃ out, mapMExcept f l = .ok out := by
  intro l
  induction l with
  | nil => intro _; exact ⟨[], rfl⟩
  | cons a rest ih =>
    intro h
    obtain ⟨b, hb⟩ := h a (by simp)
    obtain ⟨out, hout⟩ := ih (fun x hx => h x (by simp [hx]))
    exact ⟨b :: out, by simp [mapMExcept, hb, hout, Except.map]⟩

lemma mapMExcept_mem (f : α → Except String β) :
    ∀ (l : List α) (out : List β), mapMExcept f l = .ok out →
      ∀ b ∈ out, ∃ a ∈ l, f a = .ok b := by
  intro l
  induction l with
  | nil =>
    intro out h b hb
    simp [mapMExcept] at h
    subst h
    simp at hb
  | cons a rest ih =>
    intro out h b hb
    rcases hfa : f a with e | v
    · simp [mapMExcept, hfa] at h
    · rcases hrest : mapMExcept f rest with e2 | out2
      · simp [mapMExcept, hfa, hrest, Except.map] at h
      · simp [mapMExcept, hfa, hrest, Except.map] at h
        subst h
        rcases List.mem_cons.mp hb with hb1 | hb2
        · exact ⟨a, by simp, by rw [hfa, hb1]⟩
        · obtain ⟨x, hx, hfx⟩ := ih out2 hrest b hb2
          exact ⟨x, by simp [hx], hfx⟩

/-- C10: parsing a verification plan returns the error
`verification plan must contain at least one command` for every plan whose
command list is empty, even when all listed file paths are valid; and every
successfully parsed plan has a non-empty command list in which each command
is non-empty and whitespace-trimmed. -/
theorem C10_verification_plan_commands
    (files : List String) (ws : String)
    (hfiles : ∀ f ∈ files, ∃ c, normalizeVerificationPath f ws = .ok c) :
    parseVerificationPlan files [] ws =
      .error "verification plan must contain at least one command" ∧
    ∀ fs cs w plan, parseVerificationPlan fs cs w = .ok plan →
      plan.commands ≠ [] ∧ ∀ c ∈ plan.commands, c ≠ "" ∧ goTrimSpace c = c := by
  constructor
  · obtain ⟨out, hout⟩ := mapMExcept_ok_of_forall
      (fun f => match normalizeVerificationPath f ws with
        | .error e => Except.error ("invalid verification file path " ++ goQuote f ++ ": " ++ e)
        | .ok c => Except.ok c)
      files
      (fun a ha => by
        obtain ⟨c, hc⟩ := hfiles a ha
        exact ⟨c, by simp [hc]⟩)
    unfold parseVerificationPlan
    rw [hout]
    rfl
  · intro fs cs w plan hok
    unfold parseVerificationPlan at hok
    split at hok
    next e hf => exact absurd hok (by simp)
    next files2 hf =>
      split at hok
      next e hc => exact absurd hok (by simp)
      next commands2 hc =>
        split at hok
        next hz => exact absurd hok (by simp)
        next hz =>
          cases hok
          constructor
          · intro hnil
            exact hz (by rw [show commands2 = [] from hnil]; rfl)
          · intro c hcmem
            obtain ⟨a, _, hfa⟩ := mapMExcept_mem _ cs _ hc c hcmem
            by_cases hea : goTrimSpace a = ""
            · simp [hea] at hfa
            · simp [hea] at hfa
              subst hfa
              exact ⟨hea, goTrimSpace_idem a⟩

/-- Closed witness for C10 at a concrete plan. -/
theorem C10_witness :
    parseVerificationPlan ["go.mod"] [] "" =
      .error "verification plan must contain at least one command" :=
  (C10_verification_plan_commands ["go.mod"] ""
    (by intro f hf
        have hfm : f = "go.mod" := by simpa using hf
        subst hfm
        exact ⟨"go.mod", rfl⟩)).1

lemma dotSpecAt_shift (c1 : Char) (tl : List Char) (pr : Option Char) (j : Nat) :
    dotSpecAt pr (c1 :: tl) (j + 1) ↔ dotSpecAt (some c1) tl j := by
  cases j with
  | zero => exact Iff.rfl
  | succ k => exact Iff.rfl

lemma dotSpecAt_none_iff (l : List Char) (i : Nat) :
    dotSpecAt none l i ↔ specDotDotAt l i := by
  unfold dotSpecAt specDotDotAt
  by_cases h : i = 0
  · subst h
    simp [prevOK]
  · simp [h]

lemma prevOK_iff (pr : Option Char) : prevOK pr ↔ prevBool pr = true := by
  cases pr <;> simp [prevOK, prevBool]

lemma boundaryAt_two (c1 c2 : Char) (rest : List Char) :
    boundaryAt (c1 :: c2 :: rest) 2 ↔ nextBool rest = true := by
  cases rest with
  | nil => simp [boundaryAt, nextBool]
  | cons c3 r => simp [boundaryAt, nextBool]

lemma cpstAux_iff : ∀ (l : List Char) (prev : Option Char),
    cpstAux prev l = true ↔ ∃ i, dotSpecAt prev l i := by
  intro l
  induction l with
  | nil =>
    intro prev
    constructor
    · intro h; simp [cpstAux] at h
    · rintro ⟨i, h1, -, -, -⟩; simp at h1
  | cons c1 tl ih =>
    intro prev
    cases tl with
    | nil =>
      constructor
      · intro h; simp [cpstAux] at h
      · rintro ⟨i, h1, h2, -, -⟩
        cases i with
        | zero => simp at h2
        | succ j => simp at h1
    | cons c2 rest =>
      by_cases hd : c1 = '.' ∧ c2 = '.'
      · obtain ⟨hc1, hc2⟩ := hd
        subst hc1; subst hc2
        by_cases hb : (prevBool prev && nextBool rest) = true
        · have hL : cpstAux prev ('.' :: '.' :: rest) = true := by
            show (if '.' = '.' ∧ '.' = '.' then
                    if prevBool prev && nextBool rest then true
                    else cpstAux (some '.') ('.' :: rest)
                  else cpstAux (some '.') ('.' :: rest)) = true
            rw [if_pos ⟨rfl, rfl⟩, if_pos hb]
          rw [Bool.and_eq_true] at hb
          constructor
          · intro _
            refine ⟨0, rfl, rfl, ?_, ?_⟩
            · simpa using (prevOK_iff prev).mpr hb.1
            · exact (boundaryAt_two _ _ _).mpr hb.2
          · intro _
            exact hL
        · have hstep : cpstAux prev ('.' :: '.' :: rest) =
              cpstAux (some '.') ('.' :: rest) := by
            show (if '.' = '.' ∧ '.' = '.' then
                    if prevBool prev && nextBool rest then true
                    else cpstAux (some '.') ('.' :: rest)
                  else cpstAux (some '.') ('.' :: rest)) = _
            rw [if_pos ⟨rfl, rfl⟩, if_neg hb]
          rw [hstep, ih (some '.')]
          constructor
          · rintro ⟨j, hj⟩
            exact ⟨j + 1, (dotSpecAt_shift _ _ _ j).mpr hj⟩
          · rintro ⟨i, hi⟩
            cases i with
            | zero =>
              exfalso
              apply hb
              obtain ⟨-, -, hprev, hnext⟩ := hi
              rw [Bool.and_eq_true]
              refine ⟨?_, ?_⟩
              · exact (prevOK_iff prev).mp (by simpa using hprev)
              · exact (boundaryAt_two _ _ _).mp hnext
            | succ j => exact ⟨j, (dotSpecAt_shift _ _ _ j).mp hi⟩
      · have hstep : cpstAux prev (c1 :: c2 :: rest) =
            cpstAux (some c1) (c2 :: rest) := by
          show (if c1 = '.' ∧ c2 = '.' then
                  if prevBool prev && nextBool rest then true
                  else cpstAux (some c1) (c2 :: rest)
                else cpstAux (some c1) (c2 :: rest)) = _
          rw [if_neg hd]
        rw [hstep, ih (some c1)]
        constructor
        · rintro ⟨j, hj⟩
          exact ⟨j + 1, (dotSpecAt_shift _ _ _ j).mpr hj⟩
        · rintro ⟨i, hi⟩
          cases i with
          | zero =>
            exfalso
            obtain ⟨h1, h2, -, -⟩ := hi
            simp at h1 h2
            exact hd ⟨h1, h2⟩
          | succ j =>
            exact ⟨j, (dotSpecAt_shift _ _ _ j).mp hi⟩

lemma containsParentSegmentToken_iff (cmd : String) :
    containsParentSegmentToken cmd = true ↔ ∃ i, specDotDotAt cmd.toList i := by
  unfold containsParentSegmentToken
  rw [cpstAux_iff]
  exact exists_congr (fun i => dotSpecAt_none_iff cmd.toList i)

/-- C4: the tool-command static filter rejects a command iff it contains
`~`, or contains a `..` flanked on both sides by a path/shell boundary
(one of `/ space tab LF CR ; & | ( ) ' "` or the start/end of the
string), or contains a whitespace-separated token that begins with `/`
after stripping surrounding quotes; consequently `go test ./...` is
accepted while `cat ../x` is rejected; and a rejected tool command yields
a `fail` outcome carrying the filter's message as `failure_reason`
without a subprocess plan ever being produced. -/
theorem C4_tool_command_filter :
    (∀ cmd : String,
      (validateToolCommand cmd).isSome = true ↔
        (goContains cmd "~" = true ∨ (∃ i, specDotDotAt cmd.toList i) ∨
         ∃ t ∈ goFields cmd,
           goStartsWith (goTrimCutset t [squoteChar, dquoteChar]) "/" = true)) ∧
    validateToolCommand "go test ./..." = none ∧
    (validateToolCommand "cat ../x").isSome = true ∧
    ∀ node msg,
      validateToolCommand (goTrimSpace (node.StringAttr "tool_command" "")) = some msg →
      toolHandlerPlan node = .staticReject ⟨1, "fail", "", [], [], "", msg⟩ := by
  refine ⟨?_, by decide, by decide, ?_⟩
  · intro cmd
    constructor
    · intro hsome
      unfold validateToolCommand at hsome
      by_cases h1 : goContains cmd "~" = true
      · exact Or.inl h1
      · rw [if_neg h1] at hsome
        by_cases h2 : containsParentSegmentToken cmd = true
        · exact Or.inr (Or.inl ((containsParentSegmentToken_iff cmd).mp h2))
        · rw [if_neg h2] at hsome
          by_cases h3 : ((goFields cmd).any
              (fun t => goStartsWith (goTrimCutset t [squoteChar, dquoteChar]) "/")) = true
          · exact Or.inr (Or.inr (List.any_eq_true.mp h3))
          · rw [if_neg h3] at hsome
            simp at hsome
    · intro hdisj
      unfold validateToolCommand
      by_cases h1 : goContains cmd "~" = true
      · rw [if_pos h1]; rfl
      · rw [if_neg h1]
        by_cases h2 : containsParentSegmentToken cmd = true
        · rw [if_pos h2]; rfl
        · rw [if_neg h2]
          by_cases h3 : ((goFields cmd).any
              (fun t => goStartsWith (goTrimCutset t [squoteChar, dquoteChar]) "/")) = true
          · rw [if_pos h3]; rfl
          · exfalso
            rcases hdisj with h | h | h
            · exact h1 h
            · exact h2 ((containsParentSegmentToken_iff cmd).mpr h)
            · exact h3 (List.any_eq_true.mpr h)
  · intro node msg hmsg
    unfold toolHandlerPlan
    by_cases hempty : goTrimSpace (node.StringAttr "tool_command" "") = ""
    · rw [hempty] at hmsg
      rw [show validateToolCommand "" = none from by decide] at hmsg
      exact Option.noConfusion hmsg
    · rw [if_neg hempty, hmsg]

/-- Closed witness for C4: a concrete rejected command and its tool node. -/
theorem C4_witness :
    toolHandlerPlan ⟨"t", [("tool_command", GoValue.str "cat ../x")]⟩ =
      .staticReject ⟨1, "fail", "", [], [], "",
        "tool_command rejected by guardrail: contains .."⟩ :=
  C4_tool_command_filter.2.2.2 _ _ (by decide)

lemma charsLt_irrefl : ∀ l : List Char, charsLt l l = false := by
  intro l
  induction l with
  | nil => rfl
  | cons a rest ih => simp [charsLt, ih]

lemma charsLt_trans : ∀ (a b c : List Char),
    charsLt a b = true → charsLt b c = true → charsLt a c = true := by
  intro a
  induction a with
  | nil =>
    intro b c hab hbc
    cases b with
    | nil => simp [charsLt] at hab
    | cons bh bt =>
      cases c with
      | nil => simp [charsLt] at hbc
      | cons ch ct => rfl
  | cons ah atl ih =>
    intro b c hab hbc
    cases b with
    | nil => simp [charsLt] at hab
    | cons bh bt =>
      cases c with
      | nil => simp [charsLt] at hbc
      | cons ch ct =>
        simp only [charsLt] at hab hbc ⊢
        split_ifs at hab hbc ⊢ <;>
          first
          | rfl
          | omega
          | exact ih bt ct hab hbc

lemma strLtB_irrefl (s : String) : strLtB s s = false := charsLt_irrefl s.toList

lemma strLtB_trans (a b c : String) (hab : strLtB a b = true) (hbc : strLtB b c = true) :
    strLtB a c = true := charsLt_trans a.toList b.toList c.toList hab hbc

lemma edgeBefore_irrefl (e : Edge) : edgeBefore e e = false := by
  simp [edgeBefore, strLtB_irrefl]

lemma edgeBefore_trans (a b c : Edge) (hab : edgeBefore a b = true)
    (hbc : edgeBefore b c = true) : edgeBefore a c = true := by
  unfold edgeBefore at hab hbc ⊢
  by_cases h1 : a.IntAttr "weight" 0 ≠ b.IntAttr "weight" 0 <;>
    by_cases h2 : b.IntAttr "weight" 0 ≠ c.IntAttr "weight" 0 <;>
    by_cases h3 : a.IntAttr "weight" 0 ≠ c.IntAttr "weight" 0 <;>
    simp [h1, h2, h3] at hab hbc ⊢ <;>
    first
    | omega
    | exact strLtB_trans _ _ _ hab hbc

lemma edgeBefore_asymm (a b : Edge) (hab : edgeBefore a b = true) :
    edgeBefore b a = false := by
  by_contra h
  rw [Bool.not_eq_false] at h
  have := edgeBefore_trans a b a hab h
  rw [edgeBefore_irrefl] at this
  exact Bool.noConfusion this

lemma pickFold_spec (l : List Edge) : ∀ b : Edge,
    ((l.foldl pickStep b) = b ∨ (l.foldl pickStep b) ∈ l) ∧
    ((l.foldl pickStep b) = b ∨ edgeBefore (l.foldl pickStep b) b = true) ∧
    (∀ x ∈ l, edgeBefore x (l.foldl pickStep b) = false) ∧
    edgeBefore b (l.foldl pickStep b) = false := by
  induction l with
  | nil =>
    intro b
    exact ⟨Or.inl rfl, Or.inl rfl, by simp, edgeBefore_irrefl b⟩
  | cons x rest ih =>
    intro b
    have hfold : (x :: rest).foldl pickStep b = rest.foldl pickStep (pickStep b x) := rfl
    by_cases hxb : edgeBefore x b = true
    · have hb' : pickStep b x = x := by simp [pickStep, hxb]
      rw [hfold, hb']
      obtain ⟨mem', imp', opt', base'⟩ := ih x
      refine ⟨?_, ?_, ?_, ?_⟩
      · rcases mem' with h | h
        · exact Or.inr (by simp [h])
        · exact Or.inr (by simp [h])
      · rcases imp' with h | h
        · exact Or.inr (by rw [h]; exact hxb)
        · exact Or.inr (edgeBefore_trans _ _ _ h hxb)
      · intro y hy
        rcases List.mem_cons.mp hy with h | h
        · subst h; exact base'
        · exact opt' y h
      · rcases imp' with h | h
        · rw [h]; exact edgeBefore_asymm x b hxb
        · by_contra hc
          rw [Bool.not_eq_false] at hc
          have h1 := edgeBefore_trans _ _ _ hc h
          have h2 := edgeBefore_trans _ _ _ h1 hxb
          rw [edgeBefore_irrefl] at h2
          exact Bool.noConfusion h2
    · have hb' : pickStep b x = b := by simp [pickStep, hxb]
      rw [hfold, hb']
      obtain ⟨mem', imp', opt', base'⟩ := ih b
      refine ⟨?_, ?_, ?_, ?_⟩
      · rcases mem' with h | h
        · exact Or.inl h
        · exact Or.inr (by simp [h])
      · exact imp'
      · intro y hy
        rcases List.mem_cons.mp hy with h | h
        · subst h
          by_contra hc
          rw [Bool.not_eq_false] at hc
          rcases imp' with h2 | h2
          · rw [h2] at hc; exact hxb hc
          · have := edgeBefore_trans _ _ _ hc h2
            exact hxb this
        · exact opt' y h
      · exact base'

lemma pickBest_spec (l : List Edge) (e : Edge) (h : pickBest l = some e) :
    e ∈ l ∧ ∀ x ∈ l, edgeBefore x e = false := by
  cases l with
  | nil => simp [pickBest] at h
  | cons a rest =>
    have he : e = rest.foldl pickStep a := by
      simp [pickBest] at h
      exact h.symm
    obtain ⟨mem', -, opt', base'⟩ := pickFold_spec rest a
    subst he
    constructor
    · rcases mem' with h2 | h2
      · simp [h2]
      · exact List.mem_cons_of_mem _ h2
    · intro x hx
      rcases List.mem_cons.mp hx with h2 | h2
      · subst h2; exact base'
      · exact opt' x h2

lemma routeCands_sub (edges : List Edge) (src outcome : String) :
    ∀ e ∈ routeCands edges src outcome, e ∈ edges := by
  intro e he
  have he' : e ∈ (if ((edges.filter (fun e => e.fromId == src)).filter (fun e =>
        goTrimSpace (e.StringAttr "condition" "") ≠ "" &&
        goTrimSpace (e.StringAttr "condition" "") = "outcome=" ++ outcome)).length = 0
      then (edges.filter (fun e => e.fromId == src)).filter
        (fun e => goTrimSpace (e.StringAttr "condition" "") = "")
      else (edges.filter (fun e => e.fromId == src)).filter (fun e =>
        goTrimSpace (e.StringAttr "condition" "") ≠ "" &&
        goTrimSpace (e.StringAttr "condition" "") = "outcome=" ++ outcome)) := he
  split at he'
  · exact (List.mem_filter.mp (List.mem_filter.mp he').1).1
  · exact (List.mem_filter.mp (List.mem_filter.mp he').1).1

/-- C2: routing considers only the node's outgoing edges; when at least
one edge's trimmed condition equals `outcome=<tag>` the candidate set is
exactly those matching conditional edges, otherwise the unconditional
edges; the chosen successor is a candidate of maximal weight with ties
broken by ascending lexicographic target id; an empty candidate set yields
no successor; and routing is a pure function of the edge list and the
outcome tag. -/
theorem C2_routing (edges : List Edge) (src outcome : String)
    (hids : ∀ e ∈ edges, e.toId ≠ "") :
    (selectNext edges src outcome = "" ↔
      routeCands edges src outcome = []) ∧
    (routeCands edges src outcome ≠ [] →
      ∃ e ∈ routeCands edges src outcome, selectNext edges src outcome = e.toId ∧
        ∀ e2 ∈ routeCands edges src outcome,
          (e2.IntAttr "weight" 0 ≤ e.IntAttr "weight" 0) ∧
          (e2.IntAttr "weight" 0 = e.IntAttr "weight" 0 → strLtB e2.toId e.toId = false)) ∧
    (∀ edges2 src2 outcome2, edges2 = edges → src2 = src → outcome2 = outcome →
      selectNext edges2 src2 outcome2 = selectNext edges src outcome) := by
  refine ⟨?_, ?_, ?_⟩
  · unfold selectNext
    cases hpb : pickBest (routeCands edges src outcome) with
    | none =>
      simp only [hpb]
      constructor
      · intro _
        cases hc : routeCands edges src outcome with
        | nil => rfl
        | cons a rest => rw [hc] at hpb; simp [pickBest] at hpb
      · intro _; trivial
    | some e =>
      simp only [hpb]
      constructor
      · intro hid
        obtain ⟨hmem, -⟩ := pickBest_spec _ _ hpb
        exact absurd hid (hids e (routeCands_sub edges src outcome e hmem))
      · intro hc
        rw [hc] at hpb
        simp [pickBest] at hpb
  · intro hne
    cases hpb : pickBest (routeCands edges src outcome) with
    | none =>
      cases hc : routeCands edges src outcome with
      | nil => exact absurd hc hne
      | cons a rest => rw [hc] at hpb; simp [pickBest] at hpb
    | some e =>
      obtain ⟨hmem, hopt⟩ := pickBest_spec _ _ hpb
      refine ⟨e, hmem, ?_, ?_⟩
      · unfold selectNext
        rw [hpb]
      · intro e2 he2
        have h := hopt e2 he2
        unfold edgeBefore at h
        by_cases hw : e2.IntAttr "weight" 0 ≠ e.IntAttr "weight" 0
        · rw [if_pos hw] at h
          simp at h
          exact ⟨by omega, fun hEq => absurd hEq hw⟩
        · rw [if_neg hw] at h
          have hEq : e2.IntAttr "weight" 0 = e.IntAttr "weight" 0 := by
            by_contra hcon
            exact hw hcon
          exact ⟨le_of_eq hEq, fun _ => h⟩
  · intro edges2 src2 outcome2 h1 h2 h3
    subst h1; subst h2; subst h3
    rfl

/-- Closed witness for C2 at a concrete two-edge graph. -/
theorem C2_witness :
    ∃ e ∈ routeCands
        [⟨"a", "b", [("condition", GoValue.str "outcome=success")]⟩,
         ⟨"a", "c", []⟩] "a" "success",
      selectNext
        [⟨"a", "b", [("condition", GoValue.str "outcome=success")]⟩,
         ⟨"a", "c", []⟩] "a" "success" = e.toId ∧
      ∀ e2 ∈ routeCands
          [⟨"a", "b", [("condition", GoValue.str "outcome=success")]⟩,
           ⟨"a", "c", []⟩] "a" "success",
        (e2.IntAttr "weight" 0 ≤ e.IntAttr "weight" 0) ∧
        (e2.IntAttr "weight" 0 = e.IntAttr "weight" 0 → strLtB e2.toId e.toId = false) :=
  (C2_routing _ "a" "success" (by decide)).2.1 (by decide)

lemma retryLoop_spec (nodeId : String) (partialOK : Bool) (step : Nat → Outcome) :
    ∀ remaining : Nat, remaining ≠ 0 →
    ∀ (attempt rc : Nat) (ctx : Option Nat) (events : List EngineEvent) (execs : Nat),
    ∃ k : Nat, k < remaining ∧
      (∀ j, j < k → (step (attempt + j)).outcome = "retry") ∧
      (retryLoop nodeId partialOK step remaining attempt rc ctx events execs).execs
        = execs + k + 1 ∧
      (retryLoop nodeId partialOK step remaining attempt rc ctx events execs).retryCount
        = rc + k ∧
      (retryLoop nodeId partialOK step remaining attempt rc ctx events execs).ctxRetry
        = (if k = 0 then ctx else some (rc + k)) ∧
      (retryLoop nodeId partialOK step remaining attempt rc ctx events execs).events
        = events ++ retryEvents nodeId rc k ∧
      (if (step (attempt + k)).outcome = "retry"
        then k = remaining - 1 ∧
          (retryLoop nodeId partialOK step remaining attempt rc ctx events execs).out
            = exhaustedRetryOutcome partialOK (step (attempt + k))
        else (retryLoop nodeId partialOK step remaining attempt rc ctx events execs).out
            = step (attempt + k)) := by
  intro remaining
  induction remaining with
  | zero => intro h; exact absurd rfl h
  | succ n ih =>
    intro _ attempt rc ctx events execs
    by_cases hr : (step attempt).outcome = "retry"
    · by_cases hn : n = 0
      · subst hn
        have hred : retryLoop nodeId partialOK step 1 attempt rc ctx events execs
            = ⟨exhaustedRetryOutcome partialOK (step attempt), rc, ctx, events, execs + 1⟩ := by
          simp only [retryLoop]
          rw [if_neg (by simp), if_pos ⟨hr, by trivial⟩]
        refine ⟨0, by omega, ?_, ?_, ?_, ?_, ?_, ?_⟩
        · intro j hj; exact absurd hj (Nat.not_lt_zero j)
        · rw [hred]
        · rw [hred]; rfl
        · rw [hred]; simp
        · rw [hred]; simp [retryEvents]
        · rw [if_pos (by simpa using hr)]
          exact ⟨rfl, by rw [hred]; simp⟩
      · have hred : retryLoop nodeId partialOK step (n + 1) attempt rc ctx events execs
            = retryLoop nodeId partialOK step n (attempt + 1) (rc + 1) (some (rc + 1))
                (events ++
                  [EngineEvent.stageRetrying nodeId (rc + 1), EngineEvent.sleepMs 500])
                (execs + 1) := by
          simp only [retryLoop]
          rw [if_pos ⟨hr, hn⟩]
        obtain ⟨k, hk, hsteps, hexecs, hrc, hctx, hevents, hout⟩ :=
          ih hn (attempt + 1) (rc + 1) (some (rc + 1))
            (events ++ [EngineEvent.stageRetrying nodeId (rc + 1), EngineEvent.sleepMs 500])
            (execs + 1)
        refine ⟨k + 1, by omega, ?_, ?_, ?_, ?_, ?_, ?_⟩
        · intro j hj
          cases j with
          | zero => simpa using hr
          | succ j2 =>
            have hidx : attempt + (j2 + 1) = (attempt + 1) + j2 := by omega
            rw [hidx]
            exact hsteps j2 (by omega)
        · rw [hred, hexecs]; omega
        · rw [hred, hrc]; omega
        · rw [hred, hctx]
          by_cases hk0 : k = 0
          · simp [hk0]
          · simp [hk0]
            omega
        · rw [hred, hevents]
          simp [retryEvents, List.append_assoc]
        · have hidx : attempt + (k + 1) = (attempt + 1) + k := by omega
          rw [hidx]
          by_cases hlast : (step ((attempt + 1) + k)).outcome = "retry"
          · rw [if_pos hlast] at hout ⊢
            exact ⟨by omega, by rw [hred]; exact hout.2⟩
          · rw [if_neg hlast] at hout ⊢
            rw [hred]
            exact hout
    · have hred : retryLoop nodeId partialOK step (n + 1) attempt rc ctx events execs
          = ⟨step attempt, rc, ctx, events, execs + 1⟩ := by
        simp only [retryLoop]
        rw [if_neg (fun hcon => hr hcon.1), if_neg (fun hcon => hr hcon.1)]
      refine ⟨0, by omega, ?_, ?_, ?_, ?_, ?_, ?_⟩
      · intro j hj; exact absurd hj (Nat.not_lt_zero j)
      · rw [hred]
      · rw [hred]; rfl
      · rw [hred]; simp
      · rw [hred]; simp [retryEvents]
      · rw [if_neg (by simpa using hr)]
        rw [hred]
        simp

/-- C3: with `max_retries` defaulting to 0 (and assumed non-negative), the
handler of a node executes at most `max_retries + 1` times: there is a
`k` with exactly `k + 1` executions whose first `k` attempts all returned
`retry`; each non-final retry incremented the retry counter, wrote it to
`internal.retry_count.<node_id>`, emitted `StageRetrying` and slept
500 ms before the next attempt; if the final attempt still returns
`retry`, the recorded outcome is `partial_success` when `allow_partial`
is set and otherwise `fail` with reason `retry_exhausted` unless a
non-empty reason was already present; `max_retries = 0` gives exactly one
execution. -/
theorem C3_retry_policy (node : Node) (rc0 : Nat) (step : Nat → Outcome)
    (hmr : 0 ≤ node.IntAttr "max_retries" 0) :
    ∃ k : Nat,
      (executeNodeRetry node rc0 step).execs = k + 1 ∧
      ((executeNodeRetry node rc0 step).execs : Int) ≤ node.IntAttr "max_retries" 0 + 1 ∧
      (∀ j, j < k → (step j).outcome = "retry") ∧
      (executeNodeRetry node rc0 step).retryCount = rc0 + k ∧
      (executeNodeRetry node rc0 step).ctxRetry = (if k = 0 then none else some (rc0 + k)) ∧
      (executeNodeRetry node rc0 step).events = retryEvents node.id rc0 k ∧
      (if (step k).outcome = "retry"
        then (k : Int) = node.IntAttr "max_retries" 0 ∧
          (executeNodeRetry node rc0 step).out =
            exhaustedRetryOutcome (node.BoolAttr "allow_partial" false) (step k)
        else (executeNodeRetry node rc0 step).out = step k) ∧
      (node.IntAttr "max_retries" 0 = 0 → (executeNodeRetry node rc0 step).execs = 1) := by
  have hfuel : (node.IntAttr "max_retries" 0 + 1).toNat ≠ 0 := by omega
  obtain ⟨k, hk, hsteps, hexecs, hrc, hctx, hevents, hout⟩ :=
    retryLoop_spec node.id (node.BoolAttr "allow_partial" false) step
      (node.IntAttr "max_retries" 0 + 1).toNat hfuel 0 rc0 none [] 0
  have hEN : executeNodeRetry node rc0 step =
      retryLoop node.id (node.BoolAttr "allow_partial" false) step
        (node.IntAttr "max_retries" 0 + 1).toNat 0 rc0 none [] 0 := rfl
  refine ⟨k, ?_, ?_, ?_, ?_, ?_, ?_, ?_, ?_⟩
  · rw [hEN, hexecs]; omega
  · rw [hEN, hexecs]
    omega
  · intro j hj
    have := hsteps j hj
    simpa using this
  · rw [hEN, hrc]
  · rw [hEN, hctx]
  · rw [hEN, hevents]
    simp
  · have hzk : (0 : Nat) + k = k := by omega
    rw [hzk] at hout
    by_cases hlast : (step k).outcome = "retry"
    · rw [if_pos hlast] at hout ⊢
      refine ⟨by omega, ?_⟩
      rw [hEN]
      exact hout.2
    · rw [if_neg hlast] at hout ⊢
      rw [hEN]
      exact hout
  · intro h0
    rw [hEN, hexecs]
    rw [h0] at hk
    simp at hk
    omega

/-- Closed witness for C3 at a concrete node with `max_retries = 2` and a
step that retries once and then succeeds. -/
theorem C3_witness :
    ∃ k : Nat,
      (executeNodeRetry ⟨"a", [("max_retries", GoValue.int 2)]⟩ 0
        (fun i => if i = 0 then ⟨1, "retry", "", [], [], "", ""⟩
                  else ⟨1, "success", "", [], [], "", ""⟩)).execs = k + 1 ∧
      ((executeNodeRetry ⟨"a", [("max_retries", GoValue.int 2)]⟩ 0
        (fun i => if i = 0 then ⟨1, "retry", "", [], [], "", ""⟩
                  else ⟨1, "success", "", [], [], "", ""⟩)).execs : Int) ≤
        (⟨"a", [("max_retries", GoValue.int 2)]⟩ : Node).IntAttr "max_retries" 0 + 1 ∧
      (∀ j, j < k →
        ((fun i => if i = 0 then (⟨1, "retry", "", [], [], "", ""⟩ : Outcome)
                   else ⟨1, "success", "", [], [], "", ""⟩) j).outcome = "retry") ∧
      (executeNodeRetry ⟨"a", [("max_retries", GoValue.int 2)]⟩ 0
        (fun i => if i = 0 then ⟨1, "retry", "", [], [], "", ""⟩
                  else ⟨1, "success", "", [], [], "", ""⟩)).retryCount = 0 + k ∧
      (executeNodeRetry ⟨"a", [("max_retries", GoValue.int 2)]⟩ 0
        (fun i => if i = 0 then ⟨1, "retry", "", [], [], "", ""⟩
                  else ⟨1, "success", "", [], [], "", ""⟩)).ctxRetry =
        (if k = 0 then none else some (0 + k)) ∧
      (executeNodeRetry ⟨"a", [("max_retries", GoValue.int 2)]⟩ 0
        (fun i => if i = 0 then ⟨1, "retry", "", [], [], "", ""⟩
                  else ⟨1, "success", "", [], [], "", ""⟩)).events =
        retryEvents "a" 0 k ∧
      (if ((fun i => if i = 0 then (⟨1, "retry", "", [], [], "", ""⟩ : Outcome)
                     else ⟨1, "success", "", [], [], "", ""⟩) k).outcome = "retry"
        then (k : Int) = (⟨"a", [("max_retries", GoValue.int 2)]⟩ : Node).IntAttr "max_retries" 0 ∧
          (executeNodeRetry ⟨"a", [("max_retries", GoValue.int 2)]⟩ 0
            (fun i => if i = 0 then ⟨1, "retry", "", [], [], "", ""⟩
                      else ⟨1, "success", "", [], [], "", ""⟩)).out =
            exhaustedRetryOutcome
              ((⟨"a", [("max_retries", GoValue.int 2)]⟩ : Node).BoolAttr "allow_partial" false)
              ((fun i => if i = 0 then (⟨1, "retry", "", [], [], "", ""⟩ : Outcome)
                         else ⟨1, "success", "", [], [], "", ""⟩) k)
        else (executeNodeRetry ⟨"a", [("max_retries", GoValue.int 2)]⟩ 0
            (fun i => if i = 0 then ⟨1, "retry", "", [], [], "", ""⟩
                      else ⟨1, "success", "", [], [], "", ""⟩)).out =
          ((fun i => if i = 0 then (⟨1, "retry", "", [], [], "", ""⟩ : Outcome)
                     else ⟨1, "success", "", [], [], "", ""⟩) k)) ∧
      ((⟨"a", [("max_retries", GoValue.int 2)]⟩ : Node).IntAttr "max_retries" 0 = 0 →
        (executeNodeRetry ⟨"a", [("max_retries", GoValue.int 2)]⟩ 0
          (fun i => if i = 0 then ⟨1, "retry", "", [], [], "", ""⟩
                    else ⟨1, "success", "", [], [], "", ""⟩)).execs = 1) :=
  C3_retry_policy ⟨"a", [("max_retries", GoValue.int 2)]⟩ 0
    (fun i => if i = 0 then ⟨1, "retry", "", [], [], "", ""⟩
              else ⟨1, "success", "", [], [], "", ""⟩) (by decide)

lemma ofChars_append (a b : List Char) : ofChars (a ++ b) = ofChars a ++ ofChars b := rfl

lemma listIsPre_append_self [DecidableEq α] : ∀ (l r : List α), listIsPre l (l ++ r) = true := by
  intro l r
  induction l with
  | nil => rfl
  | cons a tl ih => simp [listIsPre, ih]

lemma replaceAllAux_skip (p : Char) (ps repl : List Char) :
    ∀ (sk l : List Char),
      replaceAllAux p ps repl sk.length (sk ++ l) = replaceAllAux p ps repl 0 l := by
  intro sk
  induction sk with
  | nil => intro l; rfl
  | cons a tl ih => intro l; exact ih l

lemma replaceAllAux_no_match (p : Char) (ps repl : List Char) :
    ∀ l : List Char, (listFindSub l (p :: ps)).isSome = false →
      replaceAllAux p ps repl 0 l = l := by
  intro l
  induction l with
  | nil => intro _; rfl
  | cons c rest ih =>
    intro h
    have hfind : listFindSub (c :: rest) (p :: ps) =
        if listIsPre (p :: ps) (c :: rest) then some 0
        else (listFindSub rest (p :: ps)).map (· + 1) := rfl
    by_cases hp : listIsPre (p :: ps) (c :: rest) = true
    · rw [hfind, if_pos hp] at h
      simp at h
    · rw [hfind, if_neg hp] at h
      have hrest : (listFindSub rest (p :: ps)).isSome = false := by
        rcases hfs : listFindSub rest (p :: ps) with _ | n
        · rfl
        · rw [hfs] at h; simp at h
      have hstep : replaceAllAux p ps repl 0 (c :: rest) =
          if listIsPre (p :: ps) (c :: rest) then
            repl ++ replaceAllAux p ps repl ps.length rest
          else c :: replaceAllAux p ps repl 0 rest := rfl
      rw [hstep, if_neg hp, ih hrest]

lemma goReplaceAll_not_contains (s pat repl : String) (h : goContains s pat = false) :
    goReplaceAll s pat repl = s := by
  unfold goReplaceAll
  rcases hp : pat.toList with _ | ⟨p, ps⟩
  · rfl
  · unfold goContains at h
    rw [hp] at h
    show ofChars (replaceAllAux p ps repl.toList 0 s.toList) = s
    rw [replaceAllAux_no_match p ps repl.toList s.toList h]
    rfl

lemma goReplaceAll_head (pat rest repl : String) (p : Char) (ps : List Char)
    (hp : pat.toList = p :: ps) :
    goReplaceAll (pat ++ rest) pat repl = repl ++ goReplaceAll rest pat repl := by
  unfold goReplaceAll
  rw [hp]
  have hcat : (pat ++ rest).toList = p :: (ps ++ rest.toList) := by
    rw [show (pat ++ rest).toList = pat.toList ++ rest.toList from rfl, hp]
    rfl
  rw [hcat]
  have hpre : listIsPre (p :: ps) (p :: (ps ++ rest.toList)) = true :=
    listIsPre_append_self (p :: ps) rest.toList
  have hstep : replaceAllAux p ps repl.toList 0 (p :: (ps ++ rest.toList)) =
      if listIsPre (p :: ps) (p :: (ps ++ rest.toList)) then
        repl.toList ++ replaceAllAux p ps repl.toList ps.length (ps ++ rest.toList)
      else p :: replaceAllAux p ps repl.toList 0 (ps ++ rest.toList) := rfl
  show ofChars (replaceAllAux p ps repl.toList 0 (p :: (ps ++ rest.toList))) =
    repl ++ ofChars (replaceAllAux p ps repl.toList 0 rest.toList)
  rw [hstep, if_pos hpre, replaceAllAux_skip p ps repl.toList ps rest.toList,
    ofChars_append]
  rfl

/-- C5: the plan command `GOCACHE="$PWD/.gocache" go test ./...`
normalizes to `go test ./...` for allowlist matching and so matches the
entry `go test`; its parse for execution whitespace-splits the command,
turns the leading env assignment into a binding with `$PWD` expanded to
the verification working directory, and uses the remaining tokens
directly as executable and argv; in general a successfully parsed
verification command contains no shell metacharacters and its executable
and argv are exactly the whitespace tokens after the leading env
assignments — no shell is involved. -/
theorem C5_env_prefixed_verification_command (wd : String)
    (hwd : goContains (wd ++ "/.gocache") "${PWD}" = false) :
    normalizeCommandForAllowlist "GOCACHE=\"$PWD/.gocache\" go test ./..." = "go test ./..." ∧
    commandAllowed "GOCACHE=\"$PWD/.gocache\" go test ./..." ["go test"] = true ∧
    parseVerificationCommand "GOCACHE=\"$PWD/.gocache\" go test ./..." wd =
      .ok ⟨["GOCACHE=" ++ (wd ++ "/.gocache")], "go", ["test", "./..."]⟩ ∧
    ∀ cmd w envs name args,
      parseVerificationCommand cmd w = .ok ⟨envs, name, args⟩ →
      hasShellMetachars cmd = false ∧
      (goFields (goTrimSpace cmd)).dropWhile isEnvAssignmentToken = name :: args := by
  refine ⟨by decide, by decide, ?_, ?_⟩
  · have h1 : parseVerificationCommand "GOCACHE=\"$PWD/.gocache\" go test ./..." wd =
        .ok ⟨["GOCACHE=" ++ expandVerificationEnvValue "\"$PWD/.gocache\"" wd],
             "go", ["test", "./..."]⟩ := rfl
    have h2 : expandVerificationEnvValue "\"$PWD/.gocache\"" wd =
        goReplaceAll (goReplaceAll "$PWD/.gocache" "$PWD" wd) "${PWD}" wd := rfl
    have h3 : goReplaceAll "$PWD/.gocache" "$PWD" wd = wd ++ "/.gocache" := by
      have hsplit : ("$PWD/.gocache" : String) = "$PWD" ++ "/.gocache" := rfl
      rw [hsplit, goReplaceAll_head "$PWD" "/.gocache" wd '$' ['P', 'W', 'D'] rfl,
        goReplaceAll_not_contains "/.gocache" "$PWD" wd (by decide)]
    have h4 : goReplaceAll (wd ++ "/.gocache") "${PWD}" wd = wd ++ "/.gocache" :=
      goReplaceAll_not_contains _ _ _ hwd
    rw [h1, h2, h3, h4]
  · intro cmd w envs name args hok
    unfold parseVerificationCommand at hok
    by_cases hempty : goTrimSpace cmd = ""
    · rw [if_pos hempty] at hok
      exact absurd hok (by simp)
    · rw [if_neg hempty] at hok
      by_cases hs : hasShellMetachars (goTrimSpace cmd) = true
      · rw [if_pos hs] at hok
        exact absurd hok (by simp)
      · rw [if_neg hs] at hok
        have hs2 : hasShellMetachars cmd = false := by
          have : hasShellMetachars (goTrimSpace cmd) = hasShellMetachars cmd := by
            unfold hasShellMetachars
            rw [goTrimSpace_idem]
          rw [← this]
          simpa using hs
        refine ⟨hs2, ?_⟩
        by_cases hf : goFields (goTrimSpace cmd) = []
        · rw [if_pos hf] at hok
          exact absurd hok (by simp)
        · rw [if_neg hf] at hok
          rcases hrest : (goFields (goTrimSpace cmd)).dropWhile isEnvAssignmentToken with
            _ | ⟨n, rest⟩
          · rw [hrest] at hok
            exact absurd hok (by simp)
          · rw [hrest] at hok
            simp at hok
            rw [hok.2.1, hok.2.2]

/-- Counterexample for C6 as stated: `cd sub && go test` normalizes to
`go test`, which equals the allowlist entry, yet `commandAllowed` rejects
the command because the shell-metacharacter check (which runs before any
normalization) sees the `&&`. -/
theorem C6_counterexample :
    normalizeCommandForAllowlist "cd sub && go test" = "go test" ∧
    commandAllowed "cd sub && go test" ["go test"] = false :=
  ⟨by decide, by decide⟩

/-- C6 (amended): allowlist matching accepts a command iff it contains
none of the unsafe shell metacharacters and its normalized form (the
fixed point of stripping wrapping parentheses, leading env assignments
and leading `cd`/`export` wrappers) equals a non-blank allowlist entry or
begins with that entry plus a single space; consequently any command
containing `&&` — in particular every `cd <dir> && <cmd>` wrapper — is
rejected regardless of the allowlist. -/
theorem C6_allowlist_matching (command : String) (allowedPre : List String) :
    (commandAllowed command allowedPre = true ↔
      (hasShellMetachars command = false ∧
       ∃ p ∈ allowedPre, goTrimSpace p ≠ "" ∧
         (normalizeCommandForAllowlist command = goTrimSpace p ∨
          goStartsWith (normalizeCommandForAllowlist command) (goTrimSpace p ++ " ") = true))) ∧
    ∀ c al, hasShellMetachars c = true → commandAllowed c al = false := by
  constructor
  · unfold commandAllowed
    by_cases hs : hasShellMetachars command = true
    · rw [if_pos hs]
      simp [hs]
    · rw [if_neg hs]
      constructor
      · intro h
        rw [List.any_eq_true] at h
        obtain ⟨p, hp, hcond⟩ := h
        refine ⟨by simpa using hs, p, hp, ?_⟩
        by_cases hq : goTrimSpace p = ""
        · rw [if_pos hq] at hcond
          simp at hcond
        · rw [if_neg hq] at hcond
          simp at hcond
          exact ⟨hq, hcond⟩
      · rintro ⟨-, p, hp, hq, hcond⟩
        rw [List.any_eq_true]
        refine ⟨p, hp, ?_⟩
        rw [if_neg hq]
        simpa using hcond
  · intro c al hs
    unfold commandAllowed
    rw [if_pos hs]

/-- Closed witness for C6 (amended), both directions at concrete inputs. -/
theorem C6_witness :
    commandAllowed "go test ./..." ["go test"] = true ∧
    commandAllowed "cd sub && go test" ["go test"] = false :=
  ⟨(C6_allowlist_matching "go test ./..." ["go test"]).1.mpr
      ⟨by decide, "go test", by decide, by decide, Or.inr (by decide)⟩,
   (C6_allowlist_matching "cd sub && go test" ["go test"]).2 _ _ (by decide)⟩

/-- Closed witness for C5 at the concrete working directory `/ws`. -/
theorem C5_witness :
    parseVerificationCommand "GOCACHE=\"$PWD/.gocache\" go test ./..." "/ws" =
      .ok ⟨["GOCACHE=" ++ ("/ws" ++ "/.gocache")], "go", ["test", "./..."]⟩ :=
  (C5_env_prefixed_verification_command "/ws" (by decide)).2.2.1

lemma mem_insertSortedStr (a x : String) (l : List String) :
    x ∈ insertSortedStr a l ↔ x = a ∨ x ∈ l := by
  induction l with
  | nil => simp [insertSortedStr]
  | cons b rest ih =>
    unfold insertSortedStr
    by_cases h : strLtB b a = true
    · rw [if_pos h]
      simp only [List.mem_cons, ih]
      tauto
    · rw [if_neg h]
      simp only [List.mem_cons]

lemma mem_sortStrings (x : String) : ∀ l : List String, x ∈ sortStrings l ↔ x ∈ l := by
  intro l
  induction l with
  | nil => simp [sortStrings]
  | cons a rest ih =>
    unfold sortStrings
    rw [mem_insertSortedStr]
    simp only [List.mem_cons, ih]

lemma pathAllowed_eq_any (p : String) (l : List String) :
    pathAllowed p l = l.any (fun e => specPathMatch e (goTrimSpace p)) := rfl

/-- Counterexample for C1 as stated: the diff path `"a "` (a file name
with a trailing space) is matched by no allowlist entry of `["a"]` under
the claim's matching relation, so the claim calls it a violation and
demands a `fail` override; the code trims the path before comparing, so
`disallowedDiffPaths` reports no violation and the guardrail leaves the
handler outcome unchanged. -/
theorem C1_counterexample :
    (¬ ∃ e ∈ ["a"], specPathMatch e "a " = true) ∧
    disallowedDiffPaths ⟨["a "], [], []⟩ ["a"] = [] ∧
    guardrailCheck
        ⟨"t", [("type", GoValue.str "tool"), ("allowed_write_paths", GoValue.str "a")]⟩
        ⟨["a "], [], []⟩ ⟨1, "success", "", [], [], "", ""⟩ =
      .ok (⟨1, "success", "", [], [], "", ""⟩, []) :=
  ⟨by decide, by decide, rfl⟩

lemma guardrailCheck_red (node : Node) (diff : WorkspaceDiff) (out : Outcome)
    (allowed : List String) (hexec : isExecutableNode node = true)
    (hparse : ParseAllowedWritePaths node = .ok allowed) :
    guardrailCheck node diff out =
      if 0 < allowed.length then
        if 0 < (disallowedDiffPaths diff allowed).length then
          .ok ({ out with
                  outcome := "fail",
                  failureReason := "guardrail_violation: wrote disallowed files: " ++
                    joinComma (disallowedDiffPaths diff allowed) },
               [.guardrailViolation node.id (disallowedDiffPaths diff allowed)])
        else .ok (out, [])
      else .ok (out, []) := by
  unfold guardrailCheck
  rw [if_pos hexec, hparse]

/-- C1 (amended): on an executable node (type tool or codergen) whose
`allowed_write_paths` parses to a non-empty allowlist, a workspace-diff
path is a violation iff, after trimming its surrounding whitespace, no
normalized allowlist entry matches it (an entry ending in `/` matches the
entry-without-slash or anything below it; any other entry matches only
the identical trimmed path); when violations exist the outcome is
overridden to `fail` with reason
`guardrail_violation: wrote disallowed files: <comma-separated>` and a
`GuardrailViolation` event is emitted; with no violation, or with an
absent/empty allowlist, the handler outcome passes through unchanged. -/
theorem C1_allowlist_guardrail (node : Node) (diff : WorkspaceDiff) (out : Outcome)
    (allowed : List String)
    (hexec : isExecutableNode node = true)
    (hparse : ParseAllowedWritePaths node = .ok allowed)
    (hne : allowed ≠ []) :
    (∀ p, p ∈ disallowedDiffPaths diff allowed ↔
      (p ∈ diff.created ++ diff.modified ++ diff.deleted ∧
       ¬ ∃ e ∈ normalizeAllowedEntries allowed, specPathMatch e (goTrimSpace p) = true)) ∧
    (disallowedDiffPaths diff allowed ≠ [] →
      guardrailCheck node diff out =
        .ok ({ out with
                outcome := "fail",
                failureReason := "guardrail_violation: wrote disallowed files: " ++
                  joinComma (disallowedDiffPaths diff allowed) },
             [.guardrailViolation node.id (disallowedDiffPaths diff allowed)])) ∧
    (disallowedDiffPaths diff allowed = [] → guardrailCheck node diff out = .ok (out, [])) ∧
    (∀ n2 d2 o2, isExecutableNode n2 = true → ParseAllowedWritePaths n2 = .ok [] →
      guardrailCheck n2 d2 o2 = .ok (o2, [])) := by
  refine ⟨?_, ?_, ?_, ?_⟩
  · intro p
    unfold disallowedDiffPaths
    rw [mem_sortStrings, List.mem_filter]
    constructor
    · rintro ⟨hmem, hfail⟩
      refine ⟨hmem, ?_⟩
      intro hex
      rw [pathAllowed_eq_any] at hfail
      obtain ⟨e, he, hmatch⟩ := hex
      have : (normalizeAllowedEntries allowed).any
          (fun e => specPathMatch e (goTrimSpace p)) = true :=
        List.any_eq_true.mpr ⟨e, he, hmatch⟩
      rw [this] at hfail
      simp at hfail
    · rintro ⟨hmem, hno⟩
      refine ⟨hmem, ?_⟩
      rw [pathAllowed_eq_any]
      by_cases hany : (normalizeAllowedEntries allowed).any
          (fun e => specPathMatch e (goTrimSpace p)) = true
      · exact absurd (List.any_eq_true.mp hany) hno
      · simp only [Bool.not_eq_true] at hany
        rw [hany]
        rfl
  · intro hv
    rw [guardrailCheck_red node diff out allowed hexec hparse,
      if_pos (List.length_pos.mpr hne), if_pos (List.length_pos.mpr hv)]
  · intro hv
    rw [guardrailCheck_red node diff out allowed hexec hparse,
      if_pos (List.length_pos.mpr hne), if_neg (by simp [hv])]
  · intro n2 d2 o2 hx2 hp2
    rw [guardrailCheck_red n2 d2 o2 [] hx2 hp2, if_neg (by simp)]

/-- Closed witness for C1 (amended) at a concrete violating diff. -/
theorem C1_witness :
    guardrailCheck
        ⟨"t", [("type", GoValue.str "tool"), ("allowed_write_paths", GoValue.str "a.txt")]⟩
        ⟨["b.txt"], [], []⟩ ⟨1, "success", "", [], [], "", ""⟩ =
      .ok ({ (⟨1, "success", "", [], [], "", ""⟩ : Outcome) with
              outcome := "fail",
              failureReason := "guardrail_violation: wrote disallowed files: " ++
                joinComma (disallowedDiffPaths ⟨["b.txt"], [], []⟩ ["a.txt"]) },
           [.guardrailViolation "t" (disallowedDiffPaths ⟨["b.txt"], [], []⟩ ["a.txt"])]) :=
  (C1_allowlist_guardrail
    ⟨"t", [("type", GoValue.str "tool"), ("allowed_write_paths", GoValue.str "a.txt")]⟩
    ⟨["b.txt"], [], []⟩ ⟨1, "success", "", [], [], "", ""⟩ ["a.txt"]
    (by decide) rfl (by decide)).2.1 (by decide)

/-- Counterexample for C8 as stated: the failed node `t` has no `type`
attribute but shape `parallelogram`, so it IS a tool node (its handler
kind resolves to `tool`), its `tool_command` references `scripts/run.sh`,
and that script is outside the codergen node's allowlist `agent/` — yet
the gate lets the codergen node execute normally, because the guard
compares the literal `type` attribute against `"tool"` rather than the
resolved handler kind. -/
theorem C8_counterexample :
    resolvedKind ⟨"t", [("shape", GoValue.str "parallelogram"),
        ("tool_command", GoValue.str "scripts/run.sh")]⟩ = "tool" ∧
    extractToolScriptPaths "scripts/run.sh" = ["scripts/run.sh"] ∧
    pathAllowed "scripts/run.sh" (normalizeAllowedEntries ["agent/"]) = false ∧
    executeNodeGate
        ⟨[("t", ⟨"t", [("shape", GoValue.str "parallelogram"),
            ("tool_command", GoValue.str "scripts/run.sh")]⟩)], [], []⟩
        [("last_failure.node_id", GoValue.str "t")]
        ⟨"fix", [("type", GoValue.str "codergen"),
            ("allowed_write_paths", GoValue.str "agent/")]⟩ = .ok () :=
  ⟨rfl, rfl, rfl, rfl⟩

lemma unfixable_red (g : Graph) (ctx : Ctx) (node failedNode : Node) (allowed : List String)
    (hcg : isCodergenNode node = true)
    (hfid : goTrimSpace (ctxGetString ctx "last_failure.node_id") ≠ "")
    (hlook : lookupNode g (goTrimSpace (ctxGetString ctx "last_failure.node_id")) = some failedNode)
    (htype : failedNode.nodeType = "tool")
    (hcmd : goTrimSpace (failedNode.StringAttr "tool_command" "") ≠ "")
    (hsp : extractToolScriptPaths (goTrimSpace (failedNode.StringAttr "tool_command" "")) ≠ [])
    (hparse : ParseAllowedWritePaths node = .ok allowed)
    (hne : allowed ≠ []) :
    unfixableFailureSourceReason g ctx node =
      (if (extractToolScriptPaths (goTrimSpace (failedNode.StringAttr "tool_command" ""))).filter
            (fun src => !pathAllowed src (normalizeAllowedEntries allowed)) = [] then none
       else some ("unfixable_failure_source: failed node " ++
         goTrimSpace (ctxGetString ctx "last_failure.node_id") ++ " references " ++
         joinComma (sortStrings
           ((extractToolScriptPaths (goTrimSpace (failedNode.StringAttr "tool_command" ""))).filter
             (fun src => !pathAllowed src (normalizeAllowedEntries allowed)))) ++
         " outside allowed_write_paths for " ++ node.id)) := by
  unfold unfixableFailureSourceReason
  rw [hcg]
  simp only [Bool.not_true, Bool.false_eq_true, if_false, if_neg hfid, hlook, htype, ne_eq,
    not_true_eq_false, if_false, if_neg hcmd, if_neg hsp, hparse, if_neg hne]

/-- C8 (amended): when a codergen node is about to execute and the
trimmed `last_failure.node_id` context value names a graph node whose
`type` attribute is exactly `tool` (a node that is a tool node only by
its shape does not trigger the guard), that node's trimmed
`tool_command` is non-empty and yields `.sh` script tokens, and the
codergen node's `allowed_write_paths` parses to a non-empty allowlist:
if any script token falls outside the allowlist the run aborts before
the handler with error `unfixable_failure_source: failed node <id>
references <sorted comma-separated paths> outside allowed_write_paths
for <current>`, and otherwise the gate lets the node execute. -/
theorem C8_unfixable_failure_source (g : Graph) (ctx : Ctx) (node failedNode : Node)
    (allowed : List String)
    (hcg : isCodergenNode node = true)
    (hfid : goTrimSpace (ctxGetString ctx "last_failure.node_id") ≠ "")
    (hlook : lookupNode g (goTrimSpace (ctxGetString ctx "last_failure.node_id")) = some failedNode)
    (htype : failedNode.nodeType = "tool")
    (hcmd : goTrimSpace (failedNode.StringAttr "tool_command" "") ≠ "")
    (hsp : extractToolScriptPaths (goTrimSpace (failedNode.StringAttr "tool_command" "")) ≠ [])
    (hparse : ParseAllowedWritePaths node = .ok allowed)
    (hne : allowed ≠ []) :
    ((extractToolScriptPaths (goTrimSpace (failedNode.StringAttr "tool_command" ""))).filter
        (fun src => !pathAllowed src (normalizeAllowedEntries allowed)) ≠ [] →
      executeNodeGate g ctx node =
        .error ("unfixable_failure_source: failed node " ++
          goTrimSpace (ctxGetString ctx "last_failure.node_id") ++ " references " ++
          joinComma (sortStrings
            ((extractToolScriptPaths (goTrimSpace (failedNode.StringAttr "tool_command" ""))).filter
              (fun src => !pathAllowed src (normalizeAllowedEntries allowed)))) ++
          " outside allowed_write_paths for " ++ node.id)) ∧
    ((extractToolScriptPaths (goTrimSpace (failedNode.StringAttr "tool_command" ""))).filter
        (fun src => !pathAllowed src (normalizeAllowedEntries allowed)) = [] →
      executeNodeGate g ctx node = .ok ()) := by
  have hred := unfixable_red g ctx node failedNode allowed hcg hfid hlook htype hcmd hsp hparse hne
  constructor
  · intro h
    unfold executeNodeGate
    rw [hred, if_neg h]
  · intro h
    unfold executeNodeGate
    rw [hred, if_pos h]

/-- Closed witness for C8 (amended) at a concrete aborting instance. -/
theorem C8_witness :
    executeNodeGate
        ⟨[("t", ⟨"t", [("type", GoValue.str "tool"),
            ("tool_command", GoValue.str "scripts/run.sh")]⟩)], [], []⟩
        [("last_failure.node_id", GoValue.str "t")]
        ⟨"fix", [("type", GoValue.str "codergen"),
            ("allowed_write_paths", GoValue.str "agent/")]⟩ =
      .error "unfixable_failure_source: failed node t references scripts/run.sh outside allowed_write_paths for fix" := by
  have h := (C8_unfixable_failure_source
    ⟨[("t", ⟨"t", [("type", GoValue.str "tool"),
        ("tool_command", GoValue.str "scripts/run.sh")]⟩)], [], []⟩
    [("last_failure.node_id", GoValue.str "t")]
    ⟨"fix", [("type", GoValue.str "codergen"),
        ("allowed_write_paths", GoValue.str "agent/")]⟩
    ⟨"t", [("type", GoValue.str "tool"),
        ("tool_command", GoValue.str "scripts/run.sh")]⟩
    ["agent/"]
    rfl (by decide) rfl rfl (by decide) (by decide) rfl (by decide)).1 (by decide)
  exact h

lemma restoreLoop_append_ok (ys : List HidePair) :
    ∀ (xs : List HidePair) (ws ws1 : FsTree), restoreLoop ws xs = (ws1, none) →
      restoreLoop ws (xs ++ ys) = restoreLoop ws1 ys := by
  intro xs
  induction xs with
  | nil =>
    intro ws ws1 hok
    simp only [restoreLoop, Prod.mk.injEq, and_true] at hok
    rw [List.nil_append, hok]
  | cons h rest ih =>
    intro ws ws1 hok
    rw [List.cons_append]
    rcases hmk : ws.mkdirAll h.orig.dropLast with _ | w1
    · simp [restoreLoop, hmk] at hok
    · rcases hlk : w1.lookupP h.orig with _ | t
      · rcases hpl : w1.place h.orig h.sub with _ | w2
        · simp [restoreLoop, hmk, hlk, hpl] at hok
        · simp only [restoreLoop, hmk, hlk, hpl] at hok ⊢
          exact ih w2 ws1 hok
      · simp [restoreLoop, hmk, hlk] at hok

lemma restoreLoop_append_err (ys : List HidePair) :
    ∀ (xs : List HidePair) (ws ws1 : FsTree) (e : String), restoreLoop ws xs = (ws1, some e) →
      restoreLoop ws (xs ++ ys) = (ws1, some e) := by
  intro xs
  induction xs with
  | nil =>
    intro ws ws1 e hok
    simp only [restoreLoop, Prod.mk.injEq] at hok
    exact absurd hok.2 (by simp)
  | cons h rest ih =>
    intro ws ws1 e hok
    rw [List.cons_append]
    rcases hmk : ws.mkdirAll h.orig.dropLast with _ | w1
    · simp only [restoreLoop, hmk] at hok ⊢
      exact hok
    · rcases hlk : w1.lookupP h.orig with _ | t
      · rcases hpl : w1.place h.orig h.sub with _ | w2
        · simp only [restoreLoop, hmk, hlk, hpl] at hok ⊢
          exact hok
        · simp only [restoreLoop, hmk, hlk, hpl] at hok ⊢
          exact ih w2 ws1 e hok
      · simp only [restoreLoop, hmk, hlk] at hok ⊢
        exact hok

/-- C9: restoration is not atomic and never overwrites.  For a hidden
list `l1 ++ p :: l2` in move order, restoration processes the reverse
order; if the entries of `l2` (moved after `p`) restore cleanly to `ws1`,
the parent chain of `p.orig` is recreated giving `ws2`, and `p`'s
original path exists again in `ws2`, then `restoreWorkspacePaths`
returns `ws2` with the error `blocked path was recreated during
execution: <path>`: `p`'s subtree is never placed back and the entries
of `l1` (hidden earlier, due to be restored after `p`) are left
un-restored — the result does not depend on `l1` at all. -/
theorem C9_restore_no_overwrite (ws ws1 ws2 sub : FsTree) (l1 l2 : List HidePair) (p : HidePair)
    (hpost : restoreLoop ws l2.reverse = (ws1, none))
    (hmk : ws1.mkdirAll p.orig.dropLast = some ws2)
    (hex : ws2.lookupP p.orig = some sub) :
    restoreWorkspacePaths ws (l1 ++ p :: l2) =
      (ws2, some ("blocked path was recreated during execution: " ++ joinSegs p.orig)) := by
  unfold restoreWorkspacePaths
  rw [List.reverse_append, List.reverse_cons]
  have h1 : restoreLoop ws (l2.reverse ++ [p]) =
      (ws2, some ("blocked path was recreated during execution: " ++ joinSegs p.orig)) := by
    rw [restoreLoop_append_ok [p] l2.reverse ws ws1 hpost]
    simp only [restoreLoop, hmk, hex]
  exact restoreLoop_append_err l1.reverse (l2.reverse ++ [p]) ws ws2 _ h1

/-- Closed witness for C9: the path `a` was recreated as `file 9`; the
restore stops there with the distinct error, leaving the earlier-hidden
entry `x` un-restored and the recreated file intact. -/
theorem C9_witness :
    restoreWorkspacePaths (.dir [("a", .file 9)]) [⟨["x"], .file 5⟩, ⟨["a"], .file 1⟩] =
      (.dir [("a", .file 9)],
       some ("blocked path was recreated during execution: " ++ joinSegs ["a"])) :=
  C9_restore_no_overwrite (.dir [("a", .file 9)]) (.dir [("a", .file 9)])
    (.dir [("a", .file 9)]) (.file 9) [⟨["x"], .file 5⟩] [] ⟨["a"], .file 1⟩ rfl rfl rfl

lemma SegPre_refl (p : List String) : SegPre p p := ⟨[], by simp⟩

lemma SegPre_nil (p : List String) : SegPre [] p := ⟨p, rfl⟩

lemma SegPre_trans {a b c : List String} (h1 : SegPre a b) (h2 : SegPre b c) : SegPre a c := by
  obtain ⟨r1, rfl⟩ := h1
  obtain ⟨r2, rfl⟩ := h2
  exact ⟨r1 ++ r2, by rw [List.append_assoc]⟩

lemma SegPre_length {a b : List String} (h : SegPre a b) : a.length ≤ b.length := by
  obtain ⟨r, rfl⟩ := h
  simp

lemma SegPre_cons {x : String} {a b : List String} :
    SegPre (x :: a) (x :: b) ↔ SegPre a b := by
  constructor
  · rintro ⟨r, hr⟩
    exact ⟨r, by injection hr⟩
  · rintro ⟨r, rfl⟩
    exact ⟨r, rfl⟩

lemma SegPre_dropLast {p : List String} (h : p ≠ []) : SegPre p.dropLast p :=
  ⟨[p.getLast h], (List.dropLast_append_getLast h).symm⟩

lemma not_SegPre_dropLast {p : List String} (h : p ≠ []) : ¬ SegPre p p.dropLast := by
  intro hp
  have h1 := SegPre_length hp
  have h2 : p.dropLast.length = p.length - 1 := List.length_dropLast p
  have h3 : 0 < p.length := List.length_pos.mpr h
  omega

lemma dirOrMissing_of_none {t : FsTree} {p : List String} (h : t.lookupP p = none) :
    dirOrMissing t p := by
  intro i hc
  rw [h] at hc
  cases hc

lemma dirOrMissing_of_dir {t : FsTree} {p : List String} {cs : List (String × FsTree)}
    (h : t.lookupP p = some (.dir cs)) : dirOrMissing t p := by
  intro i hc
  rw [h] at hc
  cases Option.some.inj hc

lemma dirOrMissing_root_dir {t : FsTree} (h : dirOrMissing t []) :
    ∃ cs, t = FsTree.dir cs := by
  cases t with
  | file i => exact absurd rfl (h i)
  | dir cs => exact ⟨cs, rfl⟩

lemma emptyDir_dirOrMissing (r : List String) : dirOrMissing (.dir []) r := by
  cases r with
  | nil => exact dirOrMissing_of_dir rfl
  | cons z zs => exact dirOrMissing_of_none rfl

lemma find?_cons_pos {α : Type} (p : α → Bool) (a : α) (l : List α) (h : p a = true) :
    List.find? p (a :: l) = some a := List.find?_cons_of_pos l h

lemma find?_cons_neg {α : Type} (p : α → Bool) (a : α) (l : List α) (h : ¬ p a = true) :
    List.find? p (a :: l) = List.find? p l := List.find?_cons_of_neg l h

lemma childLookup_cons (k : String) (v : FsTree) (rest : List (String × FsTree)) (s : String) :
    childLookup ((k, v) :: rest) s = if k = s then some v else childLookup rest s := by
  by_cases h : k = s
  · rw [if_pos h]
    show (List.find? (fun q => q.1 == s) ((k, v) :: rest)).map (fun q => q.2) = some v
    rw [find?_cons_pos _ _ _ (by simpa using h)]
    rfl
  · rw [if_neg h]
    show (List.find? (fun q => q.1 == s) ((k, v) :: rest)).map (fun q => q.2) =
      (List.find? (fun q => q.1 == s) rest).map (fun q => q.2)
    rw [find?_cons_neg _ _ _ (by simpa using h)]

lemma childRemove_cons (k : String) (v : FsTree) (rest : List (String × FsTree)) (s : String) :
    childRemove ((k, v) :: rest) s =
      if k = s then childRemove rest s else (k, v) :: childRemove rest s := by
  show List.filter (fun q => !(q.1 == s)) ((k, v) :: rest) = _
  rw [List.filter_cons]
  by_cases h : k = s
  · rw [if_neg (by simp [h]), if_pos h]
    rfl
  · rw [if_pos (by simp [h]), if_neg h]
    rfl

lemma childSet_cons (k : String) (v : FsTree) (rest : List (String × FsTree)) (s : String)
    (t : FsTree) :
    childSet ((k, v) :: rest) s t =
      if k = s then (s, t) :: rest else (k, v) :: childSet rest s t := rfl

lemma lookupP_append (p : List String) : ∀ (w : FsTree) (s : List String),
    w.lookupP (p ++ s) = (w.lookupP p).bind (fun t => FsTree.lookupP t s) := by
  induction p with
  | nil =>
    intro w s
    cases w with
    | file i => rfl
    | dir cs => rfl
  | cons x xs ih =>
    intro w s
    cases w with
    | file i => rfl
    | dir cs =>
      show (match childLookup cs x with
            | none => none
            | some c => FsTree.lookupP c (xs ++ s)) =
        (match childLookup cs x with
            | none => none
            | some c => FsTree.lookupP c xs).bind (fun t => FsTree.lookupP t s)
      cases hc : childLookup cs x with
      | none => rfl
      | some c => exact ih c s

lemma lookupP_spine_dir {w : FsTree} {p : List String} {x : String} {xs : List String}
    {t : FsTree} (h : w.lookupP (p ++ x :: xs) = some t) :
    ∃ cs, w.lookupP p = some (.dir cs) := by
  rw [lookupP_append] at h
  rcases Option.bind_eq_some.mp h with ⟨u, hu, hut⟩
  cases u with
  | file i => simp [FsTree.lookupP] at hut
  | dir cs => exact ⟨cs, hu⟩

lemma childLookup_mem_top {cs : List (String × FsTree)} {s : String} {c : FsTree}
    (h : childLookup cs s = some c) : s ∈ (FsTree.dir cs).topNames := by
  rcases Option.map_eq_some'.mp h with ⟨pr, hfind, hp2⟩
  have hmem := List.mem_of_find?_eq_some hfind
  have hpred : pr.1 = s := by simpa using List.find?_some hfind
  show s ∈ cs.map (fun q => q.1)
  exact List.mem_map.mpr ⟨pr, hmem, hpred⟩

lemma lookup_head_top {w : FsTree} {x : String} {xs : List String} {t : FsTree}
    (h : w.lookupP (x :: xs) = some t) : x ∈ w.topNames := by
  cases w with
  | file i => simp [FsTree.lookupP] at h
  | dir cs =>
    cases hc : childLookup cs x with
    | none =>
      exfalso
      simp only [FsTree.lookupP, hc] at h
      exact Option.noConfusion h
    | some c => exact childLookup_mem_top hc

lemma childLookup_set_self (s : String) (t : FsTree) (cs : List (String × FsTree)) :
    childLookup (childSet cs s t) s = some t := by
  induction cs with
  | nil =>
    show childLookup [(s, t)] s = some t
    rw [childLookup_cons, if_pos rfl]
  | cons pr rest ih =>
    obtain ⟨k, v⟩ := pr
    rw [childSet_cons]
    by_cases hp : k = s
    · rw [if_pos hp, childLookup_cons, if_pos rfl]
    · rw [if_neg hp, childLookup_cons, if_neg hp]
      exact ih

lemma childLookup_set_other (s z : String) (t : FsTree) (cs : List (String × FsTree))
    (hz : z ≠ s) : childLookup (childSet cs s t) z = childLookup cs z := by
  induction cs with
  | nil =>
    show childLookup [(s, t)] z = childLookup [] z
    rw [childLookup_cons, if_neg (Ne.symm hz)]
  | cons pr rest ih =>
    obtain ⟨k, v⟩ := pr
    rw [childSet_cons]
    by_cases hp : k = s
    · rw [if_pos hp, childLookup_cons, childLookup_cons, if_neg (Ne.symm hz), hp,
        if_neg (Ne.symm hz)]
    · rw [if_neg hp, childLookup_cons, childLookup_cons]
      by_cases hkz : k = z
      · rw [if_pos hkz, if_pos hkz]
      · rw [if_neg hkz, if_neg hkz]
        exact ih

lemma childLookup_remove_self (s : String) (cs : List (String × FsTree)) :
    childLookup (childRemove cs s) s = none := by
  induction cs with
  | nil => rfl
  | cons pr rest ih =>
    obtain ⟨k, v⟩ := pr
    rw [childRemove_cons]
    by_cases hp : k = s
    · rw [if_pos hp]
      exact ih
    · rw [if_neg hp, childLookup_cons, if_neg hp]
      exact ih

lemma childLookup_remove_other (s z : String) (cs : List (String × FsTree)) (hz : z ≠ s) :
    childLookup (childRemove cs s) z = childLookup cs z := by
  induction cs with
  | nil => rfl
  | cons pr rest ih =>
    obtain ⟨k, v⟩ := pr
    rw [childRemove_cons, childLookup_cons]
    by_cases hp : k = s
    · rw [if_pos hp]
      have : k ≠ z := by rw [hp]; exact Ne.symm hz
      rw [if_neg this]
      exact ih
    · rw [if_neg hp, childLookup_cons]
      by_cases hkz : k = z
      · rw [if_pos hkz, if_pos hkz]
      · rw [if_neg hkz, if_neg hkz]
        exact ih

lemma childLookup_append_self (cs : List (String × FsTree)) (x : String) (c : FsTree)
    (h : childLookup cs x = none) : childLookup (cs ++ [(x, c)]) x = some c := by
  induction cs with
  | nil =>
    show childLookup [(x, c)] x = some c
    rw [childLookup_cons, if_pos rfl]
  | cons pr rest ih =>
    obtain ⟨k, v⟩ := pr
    rw [childLookup_cons] at h
    rw [List.cons_append, childLookup_cons]
    by_cases hp : k = x
    · rw [if_pos hp] at h
      exact Option.noConfusion h
    · rw [if_neg hp] at h
      rw [if_neg hp]
      exact ih h

lemma childLookup_append_other (cs : List (String × FsTree)) (x : String) (c : FsTree)
    (z : String) (hz : z ≠ x) : childLookup (cs ++ [(x, c)]) z = childLookup cs z := by
  induction cs with
  | nil =>
    show childLookup [(x, c)] z = childLookup [] z
    rw [childLookup_cons, if_neg (Ne.symm hz)]
  | cons pr rest ih =>
    obtain ⟨k, v⟩ := pr
    rw [List.cons_append, childLookup_cons, childLookup_cons]
    by_cases hkz : k = z
    · rw [if_pos hkz, if_pos hkz]
    · rw [if_neg hkz, if_neg hkz]
      exact ih

lemma keys_childSet (s : String) (t : FsTree) (cs : List (String × FsTree)) (k : String) :
    k ∈ (childSet cs s t).map (fun q => q.1) ↔ k ∈ cs.map (fun q => q.1) ∨ k = s := by
  induction cs with
  | nil => simp [childSet]
  | cons pr rest ih =>
    obtain ⟨a, b⟩ := pr
    rw [childSet_cons]
    by_cases hp : a = s
    · rw [if_pos hp]
      subst hp
      simp only [List.map_cons, List.mem_cons]
      tauto
    · rw [if_neg hp]
      simp only [List.map_cons, List.mem_cons, ih]
      tauto

lemma keys_childRemove (s : String) (cs : List (String × FsTree)) (k : String) :
    k ∈ (childRemove cs s).map (fun q => q.1) ↔ k ∈ cs.map (fun q => q.1) ∧ k ≠ s := by
  induction cs with
  | nil => simp [childRemove]
  | cons pr rest ih =>
    obtain ⟨a, b⟩ := pr
    rw [childRemove_cons]
    by_cases hp : a = s
    · rw [if_pos hp]
      subst hp
      simp only [List.map_cons, List.mem_cons, ih]
      constructor
      · intro h2; exact ⟨Or.inr h2.1, h2.2⟩
      · rintro ⟨h2 | h2, h3⟩
        · exact absurd h2 h3
        · exact ⟨h2, h3⟩
    · rw [if_neg hp]
      simp only [List.map_cons, List.mem_cons, ih]
      constructor
      · rintro (h2 | h2)
        · exact ⟨Or.inl h2, h2 ▸ hp⟩
        · exact ⟨Or.inr h2.1, h2.2⟩
      · rintro ⟨h2 | h2, h3⟩
        · exact Or.inl h2
        · exact Or.inr ⟨h2, h3⟩

lemma detach_lookup_sub (p : List String) : ∀ (w w' sub : FsTree),
    FsTree.detach w p = some (w', sub) → w.lookupP p = some sub := by
  induction p with
  | nil => intro w w' sub h; simp [FsTree.detach] at h
  | cons x xs ih =>
    intro w w' sub h
    cases w with
    | file i => simp [FsTree.detach] at h
    | dir cs =>
      cases xs with
      | nil =>
        rcases hc : childLookup cs x with _ | c
        · simp only [FsTree.detach, hc] at h
          exact Option.noConfusion h
        · simp only [FsTree.detach, hc, Option.some.injEq, Prod.mk.injEq] at h
          simp only [FsTree.lookupP, hc]
          rw [h.2]
      | cons y ys =>
        rcases hc : childLookup cs x with _ | c
        · simp only [FsTree.detach, hc] at h
          exact Option.noConfusion h
        · rcases hd : FsTree.detach c (y :: ys) with _ | pr
          · simp only [FsTree.detach, hc, hd] at h
            exact Option.noConfusion h
          · obtain ⟨c2, sub2⟩ := pr
            simp only [FsTree.detach, hc, hd, Option.some.injEq, Prod.mk.injEq] at h
            have hlk := ih c c2 sub2 hd
            simp only [FsTree.lookupP, hc]
            rw [hlk, h.2]

lemma detach_lookup_none (p : List String) : ∀ (w w' sub : FsTree),
    FsTree.detach w p = some (w', sub) → w'.lookupP p = none := by
  induction p with
  | nil => intro w w' sub h; simp [FsTree.detach] at h
  | cons x xs ih =>
    intro w w' sub h
    cases w with
    | file i => simp [FsTree.detach] at h
    | dir cs =>
      cases xs with
      | nil =>
        rcases hc : childLookup cs x with _ | c
        · simp only [FsTree.detach, hc] at h
          exact Option.noConfusion h
        · simp only [FsTree.detach, hc, Option.some.injEq, Prod.mk.injEq] at h
          rw [← h.1]
          simp only [FsTree.lookupP, childLookup_remove_self]
      | cons y ys =>
        rcases hc : childLookup cs x with _ | c
        · simp only [FsTree.detach, hc] at h
          exact Option.noConfusion h
        · rcases hd : FsTree.detach c (y :: ys) with _ | pr
          · simp only [FsTree.detach, hc, hd] at h
            exact Option.noConfusion h
          · obtain ⟨c2, sub2⟩ := pr
            simp only [FsTree.detach, hc, hd, Option.some.injEq, Prod.mk.injEq] at h
            rw [← h.1]
            simp only [FsTree.lookupP, childLookup_set_self]
            exact ih c c2 sub2 hd

lemma detach_lookup_cases (p : List String) : ∀ (w w' sub : FsTree),
    FsTree.detach w p = some (w', sub) → ∀ s : List String,
      w'.lookupP s = w.lookupP s ∨ w'.lookupP s = none ∨
      (∃ cs1 cs2, w.lookupP s = some (.dir cs1) ∧ w'.lookupP s = some (.dir cs2)) := by
  induction p with
  | nil => intro w w' sub h; simp [FsTree.detach] at h
  | cons x xs ih =>
    intro w w' sub h s
    cases w with
    | file i => simp [FsTree.detach] at h
    | dir cs =>
      cases xs with
      | nil =>
        rcases hc : childLookup cs x with _ | c
        · simp only [FsTree.detach, hc] at h
          exact Option.noConfusion h
        · simp only [FsTree.detach, hc, Option.some.injEq, Prod.mk.injEq] at h
          rw [← h.1]
          cases s with
          | nil => exact Or.inr (Or.inr ⟨cs, childRemove cs x, rfl, rfl⟩)
          | cons z zs =>
            by_cases hzx : z = x
            · subst hzx
              refine Or.inr (Or.inl ?_)
              simp only [FsTree.lookupP, childLookup_remove_self]
            · refine Or.inl ?_
              simp only [FsTree.lookupP, childLookup_remove_other x z cs hzx]
      | cons y ys =>
        rcases hc : childLookup cs x with _ | c
        · simp only [FsTree.detach, hc] at h
          exact Option.noConfusion h
        · rcases hd : FsTree.detach c (y :: ys) with _ | pr
          · simp only [FsTree.detach, hc, hd] at h
            exact Option.noConfusion h
          · obtain ⟨c2, sub2⟩ := pr
            simp only [FsTree.detach, hc, hd, Option.some.injEq, Prod.mk.injEq] at h
            rw [← h.1]
            cases s with
            | nil => exact Or.inr (Or.inr ⟨cs, childSet cs x c2, rfl, rfl⟩)
            | cons z zs =>
              by_cases hzx : z = x
              · subst hzx
                have hrec := ih c c2 sub2 hd zs
                simp only [FsTree.lookupP, childLookup_set_self, hc]
                exact hrec
              · refine Or.inl ?_
                simp only [FsTree.lookupP, childLookup_set_other x z c2 cs hzx]

lemma detach_none_preserve {p : List String} {w w' sub : FsTree}
    (h : FsTree.detach w p = some (w', sub)) {s : List String}
    (hn : w.lookupP s = none) : w'.lookupP s = none := by
  rcases detach_lookup_cases p w w' sub h s with h1 | h1 | ⟨cs1, cs2, h1, h2⟩
  · rw [h1, hn]
  · exact h1
  · rw [hn] at h1
    exact Option.noConfusion h1

lemma detach_dirOrMissing {p : List String} {w w' sub : FsTree}
    (h : FsTree.detach w p = some (w', sub)) {s : List String}
    (hd : dirOrMissing w s) : dirOrMissing w' s := by
  rcases detach_lookup_cases p w w' sub h s with h1 | h1 | ⟨cs1, cs2, h1, h2⟩
  · intro i hc
    rw [h1] at hc
    exact hd i hc
  · exact dirOrMissing_of_none h1
  · exact dirOrMissing_of_dir h2

lemma detach_some_exists {p : List String} {w w' sub : FsTree}
    (h : FsTree.detach w p = some (w', sub)) {s : List String} {t : FsTree}
    (hs : w'.lookupP s = some t) : ∃ t2, w.lookupP s = some t2 := by
  rcases detach_lookup_cases p w w' sub h s with h1 | h1 | ⟨cs1, cs2, h1, h2⟩
  · exact ⟨t, by rw [← h1]; exact hs⟩
  · rw [h1] at hs
    exact Option.noConfusion hs
  · exact ⟨.dir cs1, h1⟩

lemma detach_top {p : List String} {w w' sub : FsTree}
    (h : FsTree.detach w p = some (w', sub)) (s : String) :
    s ∈ w.topNames ↔ s ∈ w'.topNames ∨ p = [s] := by
  cases p with
  | nil => simp [FsTree.detach] at h
  | cons x xs =>
    cases w with
    | file i => simp [FsTree.detach] at h
    | dir cs =>
      cases xs with
      | nil =>
        rcases hc : childLookup cs x with _ | c
        · simp only [FsTree.detach, hc] at h
          exact Option.noConfusion h
        · simp only [FsTree.detach, hc, Option.some.injEq, Prod.mk.injEq] at h
          rw [← h.1]
          show s ∈ cs.map (fun q => q.1) ↔
            s ∈ (childRemove cs x).map (fun q => q.1) ∨ [x] = [s]
          rw [keys_childRemove]
          constructor
          · intro hm
            by_cases hsx : s = x
            · exact Or.inr (by rw [hsx])
            · exact Or.inl ⟨hm, hsx⟩
          · rintro (⟨hm, _⟩ | heq)
            · exact hm
            · have hxs : x = s := by injection heq
              rw [← hxs]
              exact childLookup_mem_top hc
      | cons y ys =>
        rcases hc : childLookup cs x with _ | c
        · simp only [FsTree.detach, hc] at h
          exact Option.noConfusion h
        · rcases hd : FsTree.detach c (y :: ys) with _ | pr
          · simp only [FsTree.detach, hc, hd] at h
            exact Option.noConfusion h
          · obtain ⟨c2, sub2⟩ := pr
            simp only [FsTree.detach, hc, hd, Option.some.injEq, Prod.mk.injEq] at h
            rw [← h.1]
            show s ∈ cs.map (fun q => q.1) ↔
              s ∈ (childSet cs x c2).map (fun q => q.1) ∨ x :: y :: ys = [s]
            rw [keys_childSet]
            have hxmem : x ∈ cs.map (fun q => q.1) := childLookup_mem_top hc
            constructor
            · intro hm
              exact Or.inl (Or.inl hm)
            · rintro ((hm | hsx) | heq)
              · exact hm
              · rw [hsx]
                exact hxmem
              · exact absurd heq (by simp)

lemma mkdirAll_nil {w w' : FsTree} (h : FsTree.mkdirAll w [] = some w') : w' = w := by
  cases w with
  | file i => simp [FsTree.mkdirAll] at h
  | dir cs =>
    simp only [FsTree.mkdirAll, Option.some.injEq] at h
    exact h.symm

lemma mkdirAll_exists (p : List String) : ∀ (w : FsTree),
    (∀ r, SegPre r p → dirOrMissing w r) → ∃ w', FsTree.mkdirAll w p = some w' := by
  induction p with
  | nil =>
    intro w h
    obtain ⟨cs, rfl⟩ := dirOrMissing_root_dir (h [] (SegPre_nil []))
    exact ⟨.dir cs, rfl⟩
  | cons x xs ih =>
    intro w h
    obtain ⟨cs, rfl⟩ := dirOrMissing_root_dir (h [] (SegPre_nil (x :: xs)))
    rcases hc : childLookup cs x with _ | c
    · obtain ⟨c2, hc2⟩ := ih (FsTree.dir []) (fun r _ => emptyDir_dirOrMissing r)
      exact ⟨.dir (cs ++ [(x, c2)]), by simp only [FsTree.mkdirAll, hc, hc2]⟩
    · have hrec : ∀ r, SegPre r xs → dirOrMissing c r := by
        intro r hr i hcon
        have hx : SegPre (x :: r) (x :: xs) := SegPre_cons.mpr hr
        apply h (x :: r) hx i
        simp only [FsTree.lookupP, hc]
        exact hcon
      obtain ⟨c2, hc2⟩ := ih c hrec
      exact ⟨.dir (childSet cs x c2), by simp only [FsTree.mkdirAll, hc, hc2]⟩

lemma mkdirAll_frame (p : List String) : ∀ (w w' : FsTree),
    FsTree.mkdirAll w p = some w' → ∀ s, ¬ SegPre s p → w'.lookupP s = w.lookupP s := by
  induction p with
  | nil =>
    intro w w' h s _
    rw [mkdirAll_nil h]
  | cons x xs ih =>
    intro w w' h s hs
    cases w with
    | file i => simp [FsTree.mkdirAll] at h
    | dir cs =>
      cases s with
      | nil => exact absurd (SegPre_nil _) hs
      | cons z zs =>
        rcases hc : childLookup cs x with _ | c
        · rcases hm : FsTree.mkdirAll (.dir []) xs with _ | c2
          · simp only [FsTree.mkdirAll, hc, hm] at h
            exact Option.noConfusion h
          · simp only [FsTree.mkdirAll, hc, hm, Option.some.injEq] at h
            rw [← h]
            by_cases hzx : z = x
            · subst hzx
              have hzs : ¬ SegPre zs xs := fun hp => hs (SegPre_cons.mpr hp)
              cases zs with
              | nil => exact absurd (SegPre_nil xs) hzs
              | cons u us =>
                have h1 := ih (FsTree.dir []) c2 hm (u :: us) hzs
                simp only [FsTree.lookupP, childLookup_append_self cs z c2 hc, hc]
                rw [h1]
                rfl
            · simp only [FsTree.lookupP, childLookup_append_other cs x c2 z hzx]
        · rcases hm : FsTree.mkdirAll c xs with _ | c2
          · simp only [FsTree.mkdirAll, hc, hm] at h
            exact Option.noConfusion h
          · simp only [FsTree.mkdirAll, hc, hm, Option.some.injEq] at h
            rw [← h]
            by_cases hzx : z = x
            · subst hzx
              have hzs : ¬ SegPre zs xs := fun hp => hs (SegPre_cons.mpr hp)
              have h1 := ih c c2 hm zs hzs
              simp only [FsTree.lookupP, childLookup_set_self, hc]
              exact h1
            · simp only [FsTree.lookupP, childLookup_set_other x z c2 cs hzx]

lemma mkdirAll_spine (p : List String) : ∀ (w w' : FsTree),
    FsTree.mkdirAll w p = some w' → ∀ s, SegPre s p →
    ∃ cs2, w'.lookupP s = some (.dir cs2) := by
  induction p with
  | nil =>
    intro w w' h s hs
    obtain ⟨r, hr⟩ := hs
    have hsnil : s = [] := by
      cases s with
      | nil => rfl
      | cons a as => exact absurd hr (by simp)
    subst hsnil
    cases w with
    | file i => simp [FsTree.mkdirAll] at h
    | dir cs => exact ⟨cs, by rw [mkdirAll_nil h]; rfl⟩
  | cons x xs ih =>
    intro w w' h s hs
    cases w with
    | file i => simp [FsTree.mkdirAll] at h
    | dir cs =>
      rcases hc : childLookup cs x with _ | c
      · rcases hm : FsTree.mkdirAll (.dir []) xs with _ | c2
        · simp only [FsTree.mkdirAll, hc, hm] at h
          exact Option.noConfusion h
        · simp only [FsTree.mkdirAll, hc, hm, Option.some.injEq] at h
          rw [← h]
          cases s with
          | nil => exact ⟨cs ++ [(x, c2)], rfl⟩
          | cons z zs =>
            obtain ⟨r, hr⟩ := hs
            injection hr with h1 h2
            have hzx : z = x := h1.symm
            subst hzx
            obtain ⟨cs2, hcs2⟩ := ih (FsTree.dir []) c2 hm zs ⟨r, h2⟩
            refine ⟨cs2, ?_⟩
            simp only [FsTree.lookupP, childLookup_append_self cs z c2 hc]
            exact hcs2
      · rcases hm : FsTree.mkdirAll c xs with _ | c2
        · simp only [FsTree.mkdirAll, hc, hm] at h
          exact Option.noConfusion h
        · simp only [FsTree.mkdirAll, hc, hm, Option.some.injEq] at h
          rw [← h]
          cases s with
          | nil => exact ⟨childSet cs x c2, rfl⟩
          | cons z zs =>
            obtain ⟨r, hr⟩ := hs
            injection hr with h1 h2
            have hzx : z = x := h1.symm
            subst hzx
            obtain ⟨cs2, hcs2⟩ := ih c c2 hm zs ⟨r, h2⟩
            refine ⟨cs2, ?_⟩
            simp only [FsTree.lookupP, childLookup_set_self]
            exact hcs2

lemma mkdirAll_dirOrMissing {p : List String} {w w' : FsTree}
    (h : FsTree.mkdirAll w p = some w') {s : List String}
    (hd : dirOrMissing w s) : dirOrMissing w' s := by
  by_cases hp : SegPre s p
  · obtain ⟨cs2, hcs2⟩ := mkdirAll_spine p w w' h s hp
    exact dirOrMissing_of_dir hcs2
  · intro i hc
    rw [mkdirAll_frame p w w' h s hp] at hc
    exact hd i hc

lemma mkdirAll_top (p : List String) : ∀ (w w' : FsTree),
    FsTree.mkdirAll w p = some w' →
    ∀ s, s ∈ w'.topNames ↔ s ∈ w.topNames ∨ p.head? = some s := by
  cases p with
  | nil =>
    intro w w' h s
    rw [mkdirAll_nil h]
    simp
  | cons x xs =>
    intro w w' h s
    cases w with
    | file i => simp [FsTree.mkdirAll] at h
    | dir cs =>
      rcases hc : childLookup cs x with _ | c
      · rcases hm : FsTree.mkdirAll (.dir []) xs with _ | c2
        · simp only [FsTree.mkdirAll, hc, hm] at h
          exact Option.noConfusion h
        · simp only [FsTree.mkdirAll, hc, hm, Option.some.injEq] at h
          rw [← h]
          show s ∈ (cs ++ [(x, c2)]).map (fun q => q.1) ↔
            s ∈ cs.map (fun q => q.1) ∨ (x :: xs).head? = some s
          rw [List.map_append]
          simp only [List.mem_append, List.map_cons, List.map_nil, List.mem_singleton,
            List.head?_cons, Option.some.injEq]
          constructor
          · rintro (hm2 | hsx)
            · exact Or.inl hm2
            · exact Or.inr hsx.symm
          · rintro (hm2 | hsx)
            · exact Or.inl hm2
            · exact Or.inr hsx.symm
      · rcases hm : FsTree.mkdirAll c xs with _ | c2
        · simp only [FsTree.mkdirAll, hc, hm] at h
          exact Option.noConfusion h
        · simp only [FsTree.mkdirAll, hc, hm, Option.some.injEq] at h
          rw [← h]
          show s ∈ (childSet cs x c2).map (fun q => q.1) ↔
            s ∈ cs.map (fun q => q.1) ∨ (x :: xs).head? = some s
          rw [keys_childSet]
          have hxmem : x ∈ cs.map (fun q => q.1) := childLookup_mem_top hc
          simp only [List.head?_cons, Option.some.injEq]
          constructor
          · rintro (hm2 | hsx)
            · exact Or.inl hm2
            · exact Or.inr hsx.symm
          · rintro (hm2 | hsx)
            · exact Or.inl hm2
            · exact Or.inr hsx.symm

lemma place_lookup_self (p : List String) : ∀ (w sub w' : FsTree),
    FsTree.place w p sub = some w' → w'.lookupP p = some sub := by
  induction p with
  | nil => intro w sub w' h; simp [FsTree.place] at h
  | cons x xs ih =>
    intro w sub w' h
    cases w with
    | file i => simp [FsTree.place] at h
    | dir cs =>
      cases xs with
      | nil =>
        rcases hc : childLookup cs x with _ | c
        · simp only [FsTree.place, hc, Option.some.injEq] at h
          rw [← h]
          simp only [FsTree.lookupP, childLookup_append_self cs x sub hc]
        · simp only [FsTree.place, hc] at h
          exact Option.noConfusion h
      | cons y ys =>
        rcases hc : childLookup cs x with _ | c
        · simp only [FsTree.place, hc] at h
          exact Option.noConfusion h
        · rcases hp : FsTree.place c (y :: ys) sub with _ | c2
          · simp only [FsTree.place, hc, hp] at h
            exact Option.noConfusion h
          · simp only [FsTree.place, hc, hp, Option.some.injEq] at h
            rw [← h]
            simp only [FsTree.lookupP, childLookup_set_self]
            exact ih c sub c2 hp

lemma place_lookup_ext {p : List String} {w sub w' : FsTree}
    (h : FsTree.place w p sub = some w') (e : List String) :
    w'.lookupP (p ++ e) = sub.lookupP e := by
  rw [lookupP_append, place_lookup_self p w sub w' h]
  rfl

lemma place_frame (p : List String) : ∀ (w sub w' : FsTree),
    FsTree.place w p sub = some w' → ∀ s, ¬ SegPre s p → ¬ SegPre p s →
    w'.lookupP s = w.lookupP s := by
  induction p with
  | nil => intro w sub w' h; simp [FsTree.place] at h
  | cons x xs ih =>
    intro w sub w' h s hs1 hs2
    cases w with
    | file i => simp [FsTree.place] at h
    | dir cs =>
      cases s with
      | nil => exact absurd (SegPre_nil _) hs1
      | cons z zs =>
        by_cases hzx : z = x
        · subst hzx
          have h1 : ¬ SegPre zs xs := fun hp => hs1 (SegPre_cons.mpr hp)
          have h2 : ¬ SegPre xs zs := fun hp => hs2 (SegPre_cons.mpr hp)
          cases xs with
          | nil => exact absurd (SegPre_nil zs) h2
          | cons y ys =>
            rcases hc : childLookup cs z with _ | c
            · simp only [FsTree.place, hc] at h
              exact Option.noConfusion h
            · rcases hp : FsTree.place c (y :: ys) sub with _ | c2
              · simp only [FsTree.place, hc, hp] at h
                exact Option.noConfusion h
              · simp only [FsTree.place, hc, hp, Option.some.injEq] at h
                rw [← h]
                simp only [FsTree.lookupP, childLookup_set_self, hc]
                exact ih c sub c2 hp zs h1 h2
        · cases xs with
          | nil =>
            rcases hc : childLookup cs x with _ | c
            · simp only [FsTree.place, hc, Option.some.injEq] at h
              rw [← h]
              simp only [FsTree.lookupP, childLookup_append_other cs x sub z hzx]
            · simp only [FsTree.place, hc] at h
              exact Option.noConfusion h
          | cons y ys =>
            rcases hc : childLookup cs x with _ | c
            · simp only [FsTree.place, hc] at h
              exact Option.noConfusion h
            · rcases hp : FsTree.place c (y :: ys) sub with _ | c2
              · simp only [FsTree.place, hc, hp] at h
                exact Option.noConfusion h
              · simp only [FsTree.place, hc, hp, Option.some.injEq] at h
                rw [← h]
                simp only [FsTree.lookupP, childLookup_set_other x z c2 cs hzx]

lemma place_spine (p : List String) : ∀ (w sub w' : FsTree),
    FsTree.place w p sub = some w' → ∀ s, SegPre s p → s ≠ p →
    ∃ cs2, w'.lookupP s = some (.dir cs2) := by
  induction p with
  | nil => intro w sub w' h; simp [FsTree.place] at h
  | cons x xs ih =>
    intro w sub w' h s hpre hne
    cases w with
    | file i => simp [FsTree.place] at h
    | dir cs =>
      cases s with
      | nil =>
        cases xs with
        | nil =>
          rcases hc : childLookup cs x with _ | c
          · simp only [FsTree.place, hc, Option.some.injEq] at h
            exact ⟨cs ++ [(x, sub)], by rw [← h]; rfl⟩
          · simp only [FsTree.place, hc] at h
            exact Option.noConfusion h
        | cons y ys =>
          rcases hc : childLookup cs x with _ | c
          · simp only [FsTree.place, hc] at h
            exact Option.noConfusion h
          · rcases hp : FsTree.place c (y :: ys) sub with _ | c2
            · simp only [FsTree.place, hc, hp] at h
              exact Option.noConfusion h
            · simp only [FsTree.place, hc, hp, Option.some.injEq] at h
              exact ⟨childSet cs x c2, by rw [← h]; rfl⟩
      | cons z zs =>
        obtain ⟨r, hr⟩ := hpre
        injection hr with h1 h2
        have hzx : z = x := h1.symm
        subst hzx
        have hpre2 : SegPre zs xs := ⟨r, h2⟩
        have hne2 : zs ≠ xs := fun he => hne (by rw [he])
        cases xs with
        | nil =>
          obtain ⟨r2, hr2⟩ := hpre2
          cases zs with
          | nil => exact absurd rfl hne2
          | cons u us => exact absurd hr2 (by simp)
        | cons y ys =>
          rcases hc : childLookup cs z with _ | c
          · simp only [FsTree.place, hc] at h
            exact Option.noConfusion h
          · rcases hp : FsTree.place c (y :: ys) sub with _ | c2
            · simp only [FsTree.place, hc, hp] at h
              exact Option.noConfusion h
            · simp only [FsTree.place, hc, hp, Option.some.injEq] at h
              obtain ⟨cs2, hcs2⟩ := ih c sub c2 hp zs hpre2 hne2
              refine ⟨cs2, ?_⟩
              rw [← h]
              simp only [FsTree.lookupP, childLookup_set_self]
              exact hcs2

lemma place_top (p : List String) : ∀ (w sub w' : FsTree),
    FsTree.place w p sub = some w' → ∀ s, s ∈ w'.topNames ↔ s ∈ w.topNames ∨ p = [s] := by
  cases p with
  | nil => intro w sub w' h; simp [FsTree.place] at h
  | cons x xs =>
    intro w sub w' h s
    cases w with
    | file i => simp [FsTree.place] at h
    | dir cs =>
      cases xs with
      | nil =>
        rcases hc : childLookup cs x with _ | c
        · simp only [FsTree.place, hc, Option.some.injEq] at h
          rw [← h]
          show s ∈ (cs ++ [(x, sub)]).map (fun q => q.1) ↔
            s ∈ cs.map (fun q => q.1) ∨ [x] = [s]
          rw [List.map_append]
          simp only [List.mem_append, List.map_cons, List.map_nil, List.mem_singleton,
            List.cons.injEq, and_true]
          constructor
          · rintro (hm | hsx)
            · exact Or.inl hm
            · exact Or.inr hsx.symm
          · rintro (hm | hsx)
            · exact Or.inl hm
            · exact Or.inr hsx.symm
        · simp only [FsTree.place, hc] at h
          exact Option.noConfusion h
      | cons y ys =>
        rcases hc : childLookup cs x with _ | c
        · simp only [FsTree.place, hc] at h
          exact Option.noConfusion h
        · rcases hp : FsTree.place c (y :: ys) sub with _ | c2
          · simp only [FsTree.place, hc, hp] at h
            exact Option.noConfusion h
          · simp only [FsTree.place, hc, hp, Option.some.injEq] at h
            rw [← h]
            show s ∈ (childSet cs x c2).map (fun q => q.1) ↔
              s ∈ cs.map (fun q => q.1) ∨ x :: y :: ys = [s]
            rw [keys_childSet]
            have hxmem : x ∈ cs.map (fun q => q.1) := childLookup_mem_top hc
            constructor
            · rintro (hm | hsx)
              · exact Or.inl hm
              · rw [hsx]
                exact Or.inl hxmem
            · rintro (hm | heq)
              · exact Or.inl hm
              · exact absurd heq (by simp)

lemma place_exists (p : List String) : ∀ (w sub : FsTree) (cs : List (String × FsTree)),
    p ≠ [] → w.lookupP p.dropLast = some (.dir cs) → w.lookupP p = none →
    ∃ w', FsTree.place w p sub = some w' := by
  induction p with
  | nil => intro w sub cs h _ _; exact absurd rfl h
  | cons x xs ih =>
    intro w sub cs _ hdrop hnone
    cases xs with
    | nil =>
      cases w with
      | file i =>
        exfalso
        simp only [FsTree.lookupP, Option.some.injEq] at hdrop
        exact FsTree.noConfusion hdrop
      | dir cs0 =>
        rcases hc : childLookup cs0 x with _ | c
        · exact ⟨.dir (cs0 ++ [(x, sub)]), by simp only [FsTree.place, hc]⟩
        · exfalso
          simp only [FsTree.lookupP, hc] at hnone
          exact Option.noConfusion hnone
    | cons y ys =>
      cases w with
      | file i =>
        exfalso
        have hdrop2 : FsTree.lookupP (.file i) (x :: (y :: ys).dropLast) =
            some (.dir cs) := hdrop
        simp only [FsTree.lookupP] at hdrop2
        exact Option.noConfusion hdrop2
      | dir cs0 =>
        have hdrop2 : FsTree.lookupP (.dir cs0) (x :: (y :: ys).dropLast) =
            some (.dir cs) := hdrop
        rcases hc : childLookup cs0 x with _ | c
        · exfalso
          simp only [FsTree.lookupP, hc] at hdrop2
          exact Option.noConfusion hdrop2
        · have hd2 : c.lookupP (y :: ys).dropLast = some (.dir cs) := by
            simpa only [FsTree.lookupP, hc] using hdrop2
          have hn2 : c.lookupP (y :: ys) = none := by
            simpa only [FsTree.lookupP, hc] using hnone
          obtain ⟨c2, hc2⟩ := ih c sub cs (by simp) hd2 hn2
          exact ⟨.dir (childSet cs0 x c2), by simp only [FsTree.place, hc, hc2]⟩

lemma head?_dropLast_iff {p : List String} (h : p ≠ []) (s : String) :
    p.head? = some s ↔ (p.dropLast.head? = some s ∨ p = [s]) := by
  cases p with
  | nil => exact absurd rfl h
  | cons x xs =>
    cases xs with
    | nil => simp
    | cons y ys =>
      have hd : (x :: y :: ys).dropLast = x :: (y :: ys).dropLast := rfl
      rw [hd]
      simp only [List.head?_cons, Option.some.injEq]
      constructor
      · intro hx
        exact Or.inl hx
      · rintro (hx | heq)
        · exact hx
        · exact absurd heq (by simp)

lemma restoreLoop_roundtrip (L : List HidePair) : ∀ (w : FsTree),
    (∀ q ∈ L, q.orig ≠ []) →
    (∀ q ∈ L, w.lookupP q.orig = none) →
    (∀ q ∈ L, ∀ r1 r2, q.orig = r1 ++ r2 → r2 ≠ [] → dirOrMissing w r1) →
    List.Pairwise (fun a b => moveR b a) L →
    ∃ wf, restoreLoop w L = (wf, none) ∧
      ∀ s, s ∈ wf.topNames ↔ (s ∈ w.topNames ∨ ∃ q ∈ L, q.orig.head? = some s) := by
  induction L with
  | nil =>
    intro w _ _ _ _
    exact ⟨w, rfl, by simp⟩
  | cons q rest ih =>
    intro w hne hnone hanc hpw
    rw [List.pairwise_cons] at hpw
    obtain ⟨hq, hpw2⟩ := hpw
    have hq0 : q.orig ≠ [] := hne q (List.mem_cons_self q rest)
    have hnq : w.lookupP q.orig = none := hnone q (List.mem_cons_self q rest)
    have hancq := hanc q (List.mem_cons_self q rest)
    have hdm : ∀ r, SegPre r q.orig.dropLast → dirOrMissing w r := by
      intro r hr
      obtain ⟨r2, hr2⟩ := hr
      refine hancq r (r2 ++ [q.orig.getLast hq0]) ?_ (by simp)
      rw [← List.append_assoc, ← hr2, List.dropLast_append_getLast hq0]
    obtain ⟨w1, hmk⟩ := mkdirAll_exists q.orig.dropLast w hdm
    have hvac : w1.lookupP q.orig = none := by
      rw [mkdirAll_frame q.orig.dropLast w w1 hmk q.orig (not_SegPre_dropLast hq0)]
      exact hnq
    obtain ⟨csp, hpdir⟩ := mkdirAll_spine q.orig.dropLast w w1 hmk q.orig.dropLast
      (SegPre_refl _)
    obtain ⟨w2, hpl⟩ := place_exists q.orig w1 q.sub csp hq0 hpdir hvac
    have hstep : restoreLoop w (q :: rest) = restoreLoop w2 rest := by
      simp only [restoreLoop, hmk, hvac, hpl]
    have hSq : SegPre q.orig.dropLast q.orig := SegPre_dropLast hq0
    have hnone2 : ∀ b ∈ rest, w2.lookupP b.orig = none := by
      intro b hb
      obtain ⟨hnp, hfacts⟩ := hq b hb
      by_cases hqb : SegPre q.orig b.orig
      · obtain ⟨rem, hrem⟩ := hqb
        rw [hrem, place_lookup_ext hpl rem]
        exact (hfacts rem hrem).1
      · have hbq : ¬ SegPre b.orig q.orig := hnp
        rw [place_frame q.orig w1 q.sub w2 hpl b.orig hbq hqb]
        have hbq2 : ¬ SegPre b.orig q.orig.dropLast := fun hp => hbq (SegPre_trans hp hSq)
        rw [mkdirAll_frame q.orig.dropLast w w1 hmk b.orig hbq2]
        exact hnone b (List.mem_cons_of_mem q hb)
    have hanc2 : ∀ b ∈ rest, ∀ r1 r2, b.orig = r1 ++ r2 → r2 ≠ [] → dirOrMissing w2 r1 := by
      intro b hb r1 r2 heq hr2ne
      obtain ⟨hnp, hfacts⟩ := hq b hb
      have hw : dirOrMissing w r1 := hanc b (List.mem_cons_of_mem q hb) r1 r2 heq hr2ne
      have hw1 : dirOrMissing w1 r1 := mkdirAll_dirOrMissing hmk hw
      by_cases h1 : SegPre q.orig r1
      · obtain ⟨rr, hrr⟩ := h1
        have hbo : b.orig = q.orig ++ (rr ++ r2) := by
          rw [heq, hrr, List.append_assoc]
        obtain ⟨hsubnone, hsubanc⟩ := hfacts (rr ++ r2) hbo
        have hdm2 : dirOrMissing q.sub rr := hsubanc rr r2 rfl hr2ne
        intro i hcon
        rw [hrr, place_lookup_ext hpl rr] at hcon
        exact hdm2 i hcon
      · by_cases h2 : SegPre r1 q.orig
        · by_cases h3 : r1 = q.orig
          · refine absurd ?_ h1
            rw [h3]
            exact SegPre_refl q.orig
          · obtain ⟨cs2, hcs2⟩ := place_spine q.orig w1 q.sub w2 hpl r1 h2 h3
            exact dirOrMissing_of_dir hcs2
        · intro i hcon
          rw [place_frame q.orig w1 q.sub w2 hpl r1 h2 h1] at hcon
          exact hw1 i hcon
    obtain ⟨wf, hwf, htops⟩ := ih w2 (fun b hb => hne b (List.mem_cons_of_mem q hb))
      hnone2 hanc2 hpw2
    refine ⟨wf, by rw [hstep]; exact hwf, ?_⟩
    intro s
    rw [htops s]
    have htop2 := place_top q.orig w1 q.sub w2 hpl s
    have htop1 := mkdirAll_top q.orig.dropLast w w1 hmk s
    rw [htop2, htop1]
    have hh := head?_dropLast_iff hq0 s
    constructor
    · rintro (((hs | hd) | ho) | ⟨b, hb, hhead⟩)
      · exact Or.inl hs
      · exact Or.inr ⟨q, List.mem_cons_self q rest, hh.mpr (Or.inl hd)⟩
      · exact Or.inr ⟨q, List.mem_cons_self q rest, hh.mpr (Or.inr ho)⟩
      · exact Or.inr ⟨b, List.mem_cons_of_mem q hb, hhead⟩
    · rintro (hs | ⟨b, hb, hhead⟩)
      · exact Or.inl (Or.inl (Or.inl hs))
      · rcases List.mem_cons.mp hb with hbq | hbr
        · subst hbq
          rcases hh.mp hhead with hd | ho
          · exact Or.inl (Or.inl (Or.inr hd))
          · exact Or.inl (Or.inr ho)
        · exact Or.inr ⟨b, hbr, hhead⟩

lemma hide_cons_inv {w w2 sub : FsTree} {p : List String}
    (hdet : FsTree.detach w p = some (w2, sub))
    {w1 : FsTree} {newp : List HidePair}
    (hn1 : ∀ q ∈ newp, q.orig ≠ [])
    (hn2 : ∀ s, s ∈ w2.topNames ↔ (s ∈ w1.topNames ∨ ∃ q ∈ newp, q.orig = [s]))
    (hn3 : ∀ q ∈ newp, ∀ x xs, q.orig = x :: xs → x ∈ w2.topNames)
    (hn4 : List.Pairwise moveR newp)
    (hn6 : ∀ q ∈ newp, ∃ t, w2.lookupP q.orig = some t)
    (hn7 : ∀ q ∈ newp, ∀ rem, w2.lookupP (q.orig ++ rem) = none → q.sub.lookupP rem = none)
    (hn8 : ∀ q ∈ newp, ∀ r, dirOrMissing w2 (q.orig ++ r) → dirOrMissing q.sub r) :
    (∀ q ∈ (⟨p, sub⟩ : HidePair) :: newp, q.orig ≠ []) ∧
    (∀ s, s ∈ w.topNames ↔
      (s ∈ w1.topNames ∨ ∃ q ∈ (⟨p, sub⟩ : HidePair) :: newp, q.orig = [s])) ∧
    (∀ q ∈ (⟨p, sub⟩ : HidePair) :: newp, ∀ x xs, q.orig = x :: xs → x ∈ w.topNames) ∧
    List.Pairwise moveR ((⟨p, sub⟩ : HidePair) :: newp) ∧
    (∀ q ∈ (⟨p, sub⟩ : HidePair) :: newp, ∃ t, w.lookupP q.orig = some t) ∧
    (∀ q ∈ (⟨p, sub⟩ : HidePair) :: newp, ∀ rem, w.lookupP (q.orig ++ rem) = none →
      q.sub.lookupP rem = none) ∧
    (∀ q ∈ (⟨p, sub⟩ : HidePair) :: newp, ∀ r, dirOrMissing w (q.orig ++ r) →
      dirOrMissing q.sub r) := by
  have hpne : p ≠ [] := by
    intro h0
    rw [h0] at hdet
    simp [FsTree.detach] at hdet
  have hsub := detach_lookup_sub p w w2 sub hdet
  have hgone := detach_lookup_none p w w2 sub hdet
  refine ⟨?_, ?_, ?_, ?_, ?_, ?_, ?_⟩
  · intro q hq
    rcases List.mem_cons.mp hq with hq1 | hq2
    · rw [hq1]
      exact hpne
    · exact hn1 q hq2
  · intro s
    rw [detach_top hdet s, hn2 s]
    constructor
    · rintro ((hs | ⟨b, hb, hbo⟩) | hps)
      · exact Or.inl hs
      · exact Or.inr ⟨b, List.mem_cons_of_mem _ hb, hbo⟩
      · exact Or.inr ⟨⟨p, sub⟩, List.mem_cons_self _ _, hps⟩
    · rintro (hs | ⟨b, hb, hbo⟩)
      · exact Or.inl (Or.inl hs)
      · rcases List.mem_cons.mp hb with hb1 | hb2
        · rw [hb1] at hbo
          exact Or.inr hbo
        · exact Or.inl (Or.inr ⟨b, hb2, hbo⟩)
  · intro q hq
    rcases List.mem_cons.mp hq with hq1 | hq2
    · intro x xs ho
      rw [hq1] at ho
      have ho2 : p = x :: xs := ho
      have hsub2 := hsub
      rw [ho2] at hsub2
      exact lookup_head_top hsub2
    · intro x xs ho
      have hx2 := hn3 q hq2 x xs ho
      exact (detach_top hdet x).mpr (Or.inl hx2)
  · rw [List.pairwise_cons]
    refine ⟨?_, hn4⟩
    intro l hl
    constructor
    · rintro ⟨rem, hrem⟩
      obtain ⟨t2, ht2⟩ := hn6 l hl
      rw [hrem, lookupP_append, hgone] at ht2
      exact Option.noConfusion ht2
    · intro rem hrem
      constructor
      · apply hn7 l hl rem
        rw [← hrem]
        exact hgone
      · intro r1 r2 hr12 hr2ne
        apply hn8 l hl r1
        have hrem2 : p = l.orig ++ rem := hrem
        have hp2 : p = (l.orig ++ r1) ++ r2 := by
          rw [hrem2, hr12, List.append_assoc]
        rcases r2 with _ | ⟨z, zs⟩
        · exact absurd rfl hr2ne
        · have hsub2 := hsub
          rw [hp2] at hsub2
          obtain ⟨csd, hcsd⟩ := lookupP_spine_dir hsub2
          exact detach_dirOrMissing hdet (dirOrMissing_of_dir hcsd)
  · intro q hq
    rcases List.mem_cons.mp hq with hq1 | hq2
    · rw [hq1]
      exact ⟨sub, hsub⟩
    · obtain ⟨t2, ht2⟩ := hn6 q hq2
      exact detach_some_exists hdet ht2
  · intro q hq
    rcases List.mem_cons.mp hq with hq1 | hq2
    · rw [hq1]
      intro rem hr
      rw [lookupP_append, hsub] at hr
      exact hr
    · intro rem hr
      exact hn7 q hq2 rem (detach_none_preserve hdet hr)
  · intro q hq
    rcases List.mem_cons.mp hq with hq1 | hq2
    · rw [hq1]
      intro r hr i hcon
      apply hr i
      rw [lookupP_append, hsub]
      exact hcon
    · intro r hr
      exact hn8 q hq2 r (detach_dirOrMissing hdet hr)

lemma hideLoop_inv (bl : List String) : ∀ (w : FsTree) (acc : List HidePair)
    (w1 : FsTree) (out : List HidePair),
    hideLoop w acc bl = .ok (w1, out) →
    ∃ newp : List HidePair,
      out = acc ++ newp ∧
      (∀ q ∈ newp, q.orig ≠ []) ∧
      (∀ s, s ∈ w.topNames ↔ (s ∈ w1.topNames ∨ ∃ q ∈ newp, q.orig = [s])) ∧
      (∀ q ∈ newp, ∀ x xs, q.orig = x :: xs → x ∈ w.topNames) ∧
      List.Pairwise moveR newp ∧
      (∀ q ∈ newp, ∃ t, w.lookupP q.orig = some t) ∧
      (∀ q ∈ newp, ∀ rem, w.lookupP (q.orig ++ rem) = none → q.sub.lookupP rem = none) ∧
      (∀ q ∈ newp, ∀ r, dirOrMissing w (q.orig ++ r) → dirOrMissing q.sub r) := by
  induction bl with
  | nil =>
    intro w acc w1 out h
    simp only [hideLoop, Except.ok.injEq, Prod.mk.injEq] at h
    obtain ⟨hw, hout⟩ := h
    subst hw
    exact ⟨[], by simp [← hout], by simp, by simp, by simp, by simp, by simp, by simp, by simp⟩
  | cons rel rest ih =>
    intro w acc w1 out h
    simp only [hideLoop] at h
    by_cases hr0 : toSlash (goTrimSpace rel) = ""
    · rw [if_pos hr0] at h
      exact ih w acc w1 out h
    · rw [if_neg hr0] at h
      by_cases hr1 : goStartsWith (toSlash (goTrimSpace rel)) "/" = true
      · rw [if_pos hr1] at h
        exact Except.noConfusion h
      · rw [if_neg hr1] at h
        by_cases hr2 : cleanHasParentSeg (toSlash (goTrimSpace rel)) = true
        · rw [if_pos hr2] at h
          exact Except.noConfusion h
        · rw [if_neg hr2] at h
          rcases hlk : w.lookupP (relSegments (toSlash (goTrimSpace rel))) with _ | t0
          · rw [hlk] at h
            exact ih w acc w1 out h
          · rw [hlk] at h
            rcases hdet : w.detach (relSegments (toSlash (goTrimSpace rel))) with _ | pr
            · rw [hdet] at h
              exact Except.noConfusion h
            · obtain ⟨w2, sub⟩ := pr
              rw [hdet] at h
              have h2 : hideLoop w2
                  (acc ++ [⟨relSegments (toSlash (goTrimSpace rel)), sub⟩]) rest =
                  .ok (w1, out) := h
              obtain ⟨newp, hout, hn1, hn2, hn3, hn4, hn6, hn7, hn8⟩ :=
                ih w2 (acc ++ [⟨relSegments (toSlash (goTrimSpace rel)), sub⟩]) w1 out h2
              obtain ⟨g1, g2, g3, g4, g6, g7, g8⟩ :=
                hide_cons_inv hdet hn1 hn2 hn3 hn4 hn6 hn7 hn8
              refine ⟨⟨relSegments (toSlash (goTrimSpace rel)), sub⟩ :: newp, ?_,
                g1, g2, g3, g4, g6, g7, g8⟩
              rw [hout, List.append_assoc]
              rfl

lemma hideWorkspacePaths_inv {ws0 : FsTree} {blocked : List String} {ws1 : FsTree}
    {hidden : List HidePair} (h : hideWorkspacePaths ws0 blocked = .ok (ws1, hidden)) :
    (∀ q ∈ hidden, q.orig ≠ []) ∧
    (∀ s, s ∈ ws0.topNames ↔ (s ∈ ws1.topNames ∨ ∃ q ∈ hidden, q.orig = [s])) ∧
    (∀ q ∈ hidden, ∀ x xs, q.orig = x :: xs → x ∈ ws0.topNames) ∧
    List.Pairwise moveR hidden := by
  unfold hideWorkspacePaths at h
  by_cases hb : blocked.length = 0
  · rw [if_pos hb] at h
    simp only [Except.ok.injEq, Prod.mk.injEq] at h
    obtain ⟨hw, hh⟩ := h
    subst hw
    subst hh
    exact ⟨by simp, by simp, by simp, by simp⟩
  · rw [if_neg hb] at h
    obtain ⟨newp, hout, hn1, hn2, hn3, hn4, _, _, _⟩ :=
      hideLoop_inv (sortStrings blocked) ws0 [] ws1 hidden h
    rw [List.nil_append] at hout
    subst hout
    exact ⟨hn1, hn2, hn3, hn4⟩

/-- Counterexample for C7 as stated: the workspace holds `a` and `b`, the
block set is `a` alone, and the agent deletes the unrelated top entry `b`
while leaving the hidden location untouched — so every hypothesis of the
claim holds (relative block set, no parent segments, the blocked path is
not recreated), the restore succeeds, yet the set of top-level entries
after restoration is `a` alone, not the original `a, b`. -/
theorem C7_counterexample :
    hideWorkspacePaths (.dir [("a", .file 0), ("b", .file 1)]) ["a"] =
      .ok (.dir [("b", .file 1)], [⟨["a"], .file 0⟩]) ∧
    FsTree.lookupP (.dir []) ["a"] = none ∧
    restoreWorkspacePaths (.dir []) [⟨["a"], .file 0⟩] = (.dir [("a", .file 0)], none) ∧
    "b" ∈ FsTree.topNames (.dir [("a", .file 0), ("b", .file 1)]) ∧
    "b" ∉ FsTree.topNames (.dir [("a", .file 0)]) :=
  ⟨rfl, rfl, rfl, by decide, by decide⟩

/-- C7 (amended): hide-and-restore is a round-trip for every agent
execution that (a) does not recreate any hidden path at its original
location, (b) preserves the set of top-level workspace entries, and
(c) leaves every proper ancestor of a hidden original either absent or a
directory.  Under these conditions the restore succeeds with no error and
the set of top-level entries after restoration equals the set before
hiding; the entries are processed in reverse move order by definition of
`restoreWorkspacePaths`. -/
theorem C7_hide_restore_roundtrip (ws0 ws1 ws2 : FsTree) (blocked : List String)
    (hidden : List HidePair)
    (hhide : hideWorkspacePaths ws0 blocked = .ok (ws1, hidden))
    (h1 : ∀ q ∈ hidden, ws2.lookupP q.orig = none)
    (h2 : ∀ s, s ∈ ws2.topNames ↔ s ∈ ws1.topNames)
    (h3 : ∀ q ∈ hidden, ∀ r1 r2, q.orig = r1 ++ r2 → r2 ≠ [] → dirOrMissing ws2 r1) :
    ∃ wsf, restoreWorkspacePaths ws2 hidden = (wsf, none) ∧
      ∀ s, s ∈ wsf.topNames ↔ s ∈ ws0.topNames := by
  obtain ⟨H1, H2, H3, H4⟩ := hideWorkspacePaths_inv hhide
  have hpw : List.Pairwise (fun a b => moveR b a) hidden.reverse := by
    rw [List.pairwise_reverse]
    exact H4
  obtain ⟨wsf, hrun, htops⟩ := restoreLoop_roundtrip hidden.reverse ws2
    (fun q hq => H1 q (List.mem_reverse.mp hq))
    (fun q hq => h1 q (List.mem_reverse.mp hq))
    (fun q hq => h3 q (List.mem_reverse.mp hq))
    hpw
  refine ⟨wsf, ?_, ?_⟩
  · show restoreLoop ws2 hidden.reverse = (wsf, none)
    exact hrun
  · intro s
    rw [htops s]
    constructor
    · rintro (hs | ⟨q, hq, hhead⟩)
      · exact (H2 s).mpr (Or.inl ((h2 s).mp hs))
      · rcases hqo : q.orig with _ | ⟨x, xs⟩
        · rw [hqo] at hhead
          exact absurd hhead (by simp)
        · have hx := H3 q (List.mem_reverse.mp hq) x xs hqo
          rw [hqo] at hhead
          have hxs : x = s := by simpa using hhead
          rw [← hxs]
          exact hx
    · intro hs
      rcases (H2 s).mp hs with hs1 | ⟨q, hq, horig⟩
      · exact Or.inl ((h2 s).mpr hs1)
      · refine Or.inr ⟨q, List.mem_reverse.mpr hq, ?_⟩
        rw [horig]
        rfl

/-- Closed witness for C7 (amended): blocking `a` in a workspace holding
`a` and `b`, with an agent that changes nothing, restores a workspace
whose top-level entries are exactly the original ones. -/
theorem C7_witness :
    ∃ wsf, restoreWorkspacePaths (.dir [("b", .file 1)]) [⟨["a"], .file 0⟩] = (wsf, none) ∧
      ∀ s, s ∈ wsf.topNames ↔ s ∈ FsTree.topNames (.dir [("a", .file 0), ("b", .file 1)]) :=
  C7_hide_restore_roundtrip (.dir [("a", .file 0), ("b", .file 1)]) (.dir [("b", .file 1)])
    (.dir [("b", .file 1)]) ["a"] [⟨["a"], .file 0⟩]
    rfl
    (by
      intro q hq
      rw [List.mem_singleton] at hq
      subst hq
      rfl)
    (fun s => Iff.rfl)
    (by
      intro q hq r1 r2 heq hne
      rw [List.mem_singleton] at hq
      subst hq
      rcases r1 with _ | ⟨x, xs⟩
      · exact dirOrMissing_of_dir rfl
      · exfalso
        have heq2 : ["a"] = x :: (xs ++ r2) := heq
        injection heq2 with hx hrest
        exact hne (List.append_eq_nil.mp hrest.symm).2)
